import Mathlib

/-!
# mod_virtualroot: a model of `src/mod_virtualroot.c`

A C string is modelled by the list of its bytes in front of the terminating NUL
(`List Char`); reading at the end of the list reads the terminator.  Pointers
into the server name are integer offsets from `name`.  The constant
`HUGE_STRING_LEN`, the server port, `r->filename`, `ap_os_is_path_absolute` and
the `apr_stat` probe belong to the host server and are parameters.
-/

set_option autoImplicit false
set_option maxRecDepth 8000

namespace VirtualRoot

/-! ## Bytes and C strings -/

/-- The terminating byte of a C string. -/
def NUL : Char := Char.ofNat 0

/-- The byte `*p` of a C string `p`: its first byte, or the terminator at the end. -/
def peek (p : List Char) : Char := p.headD NUL

/-- The C library test `apr_isdigit`. -/
def apr_isdigit (c : Char) : Bool := c.isDigit

/-- The C library map `apr_tolower` (C locale). -/
def apr_tolower (c : Char) : Char := c.toLower

/-- Call `strncmp(a, b, n) == 0` on two C strings. -/
def strncmpEq (a b : List Char) (n : Nat) : Bool := decide (a.take n = b.take n)

/-- Call `strcasecmp(a, b) == 0` on two C strings. -/
def strcasecmpEq (a b : List Char) : Bool := decide (a.map apr_tolower = b.map apr_tolower)

/-- A buffer read as a C string: the bytes in front of its first NUL. -/
def cstr (b : List Char) : List Char := b.takeWhile (fun c => c != NUL)

/-! ## Per-server configuration (lines 65-98, 165-172) -/

/-- The record `mvr_sconf_t`; `doc_root = none` is the NULL pointer. -/
structure mvr_sconf_t where
  doc_root : Option (List Char)
  domains : List (List Char)
deriving DecidableEq, Repr

/-- Lines 70-78. -/
def mvr_create_server_config : mvr_sconf_t := { doc_root := none, domains := [] }

/-- Lines 80-98. -/
def mvr_merge_server_config (parent child : mvr_sconf_t) : mvr_sconf_t :=
  { doc_root := if child.doc_root = none then parent.doc_root else child.doc_root
    domains := if child.domains.length = 0 then parent.domains else child.domains }

/-- Lines 165-172: push a copy of `domain` onto `conf->domains`. -/
def virtualroot_domain_set (conf : mvr_sconf_t) (domain : List Char) : mvr_sconf_t :=
  { conf with domains := conf.domains ++ [domain] }

/-! ## The format check of `virtualroot_set` (lines 100-163) -/

/-- Lines 119-159: one pass through the body of the sanity-check loop, entered
with `*p != 0`.  The result is the advanced pointer `p`, or `none` where the
code returns "syntax error in format string". -/
def setStep : List Char → Option (List Char)
  | [] => some []
  | c :: p =>
    if c ≠ '%' then some p
    else if peek p = 'p' ∨ peek p = '%' then some p.tail
    else
      let p := if peek p = '-' then p.tail else p
      if !apr_isdigit (peek p) then none
      else
        let p := p.tail
        let p := if peek p = '+' then p.tail else p
        if peek p ≠ '.' then some p
        else
          let p := p.tail
          let p := if peek p = '-' then p.tail else p
          if !apr_isdigit (peek p) then none
          else
            let p := p.tail
            let p := if peek p = '+' then p.tail else p
            some p

/-- Lines 118-160: the sanity-check loop.  The result lists the value of `p` at
each entry of the loop body (ghost output), or is `none` on a syntax error.
Every pass consumes a byte, so `fuel = strlen(map)` passes are enough. -/
def setLoop : Nat → List Char → Option (List (List Char))
  | _, [] => some []
  | 0, _ :: _ => none
  | fuel + 1, c :: p =>
    match setStep (c :: p) with
    | none => none
    | some q => (setLoop fuel q).map (fun ps => (c :: p) :: ps)

/-- The two error returns of `virtualroot_set`. -/
inductive SetError where
  /-- "format string must be an absolute path, or 'none'" -/
  | notAbsolute
  /-- "syntax error in format string" -/
  | badFormat
deriving DecidableEq, Repr

/-- The bytes of the disabled marker "none". -/
def noneMarker : List Char := ['n', 'o', 'n', 'e']

/-- Lines 100-163.  `isAbs` is `ap_os_is_path_absolute`.  The result is the
returned error (`none` is the NULL return) and the configuration afterwards. -/
def virtualroot_set (isAbs : List Char → Bool) (conf : mvr_sconf_t) (map : List Char) :
    Option SetError × mvr_sconf_t :=
  if !isAbs map then
    if !strcasecmpEq map noneMarker then (some SetError.notAbsolute, conf)
    else (none, conf)
  else
    match setLoop map.length map with
    | none => (some SetError.badFormat, conf)
    | some _ => (none, { conf with doc_root := some map })

/-- The Unix `ap_os_is_path_absolute`: the path starts with a slash. -/
def unixAbs (s : List Char) : Bool := peek s = '/'

/-! ## The dot index (lines 223-230) -/

/-- The constant `MAXDOTS`. -/
def MAXDOTS : Nat := 19

/-- Lines 225-230: the scan over `name`.  `p` is the offset of the byte under
the cursor and `dots` the entries `dots[0 .. ndots-1]` stored so far, so that
`ndots = dots.length`; at the terminator `dots[ndots] = p` is stored. -/
def scanDots : List Char → Int → List Int → List Int
  | [], p, dots => dots ++ [p]
  | c :: rest, p, dots =>
    if c = '.' ∧ dots.length < MAXDOTS then scanDots rest (p + 1) (dots ++ [p])
    else scanDots rest (p + 1) dots

/-- Lines 223-230: the array `dots[0 .. ndots]`, starting with `dots[0] = name-1`. -/
def dotsOf (name : List Char) : List Int := scanDots name 0 [-1]

/-- The variable `ndots` after line 230. -/
def ndotsOf (name : List Char) : Nat := (dotsOf name).length - 1

/-- The array read `dots[k]`. -/
def dotsAt (dots : List Int) (k : Int) : Int :=
  if k < 0 then 0 else dots.getD k.toNat 0

/-! ## Field resolution (lines 280-313) -/

/-- The pointer pair `start`, `end`.  With `lit = false` both are offsets from
`name`; with `lit = true` they are offsets into the string literal "_". -/
structure Range where
  lit : Bool
  start : Int
  stop : Int
deriving DecidableEq, Repr

/-- The pair `start = "_"`, `end = start+1`. -/
def Range.underscore : Range := { lit := true, start := 0, stop := 1 }

/-- Lines 280-297. -/
def resolveN (dots : List Int) (ndots : Nat) (N : Int) (Nd Np : Bool) : Range :=
  let start := dotsAt dots 0 + 1
  let stop := dotsAt dots ndots
  if N ≠ 0 then
    if N > ndots then Range.underscore
    else if !Nd then
      { lit := false, start := dotsAt dots (N - 1) + 1,
        stop := if !Np then dotsAt dots N else stop }
    else
      { lit := false, start := if !Np then dotsAt dots (ndots - N) + 1 else start,
        stop := dotsAt dots (ndots - N + 1) }
  else { lit := false, start := start, stop := stop }

/-- Lines 298-313. -/
def resolveM (r : Range) (M : Int) (Md Mp : Bool) : Range :=
  if M ≠ 0 then
    if M > r.stop - r.start then Range.underscore
    else if !Md then
      { lit := r.lit, start := r.start + M - 1,
        stop := if !Mp then r.start + M - 1 + 1 else r.stop }
    else
      { lit := r.lit, start := if !Mp then r.stop - M else r.start,
        stop := r.stop - M + 1 }
  else r

/-- The bytes `s[a .. b)` of a string. -/
def slice (s : List Char) (a b : Int) : List Char :=
  (s.drop a.toNat).take (b - a).toNat

/-- The bytes the copy loop of lines 315-317 reads: `*p` for `start <= p < end`. -/
def rangeBytes (name : List Char) (r : Range) : List Char :=
  slice (if r.lit then ['_'] else name) r.start r.stop

/-! ## The template scanner of `virtualroot_interpolate` (lines 236-278) -/

/-- What one pass of the loop of lines 236-318 reads from the template. -/
inductive Tok where
  /-- a normal character (lines 237-242) -/
  | lit (c : Char)
  /-- the directive `%%` (lines 248-253) -/
  | pct
  /-- the directive `%p` (lines 255-261) -/
  | port
  /-- a field: the variables `Nd N Np Md M Mp` after line 278 -/
  | field (Nd : Bool) (N : Int) (Np : Bool) (Md : Bool) (M : Int) (Mp : Bool)
deriving DecidableEq, Repr

/-- The value `c - '0'` of lines 267 and 274. -/
def digitVal (c : Char) : Int := (c.toNat : Int) - 48

/-- Lines 237-278: the reads of one pass of the loop, entered with `*map != 0`.
The result is the token and the advanced pointer `map`.  It is `none` where
`*map++` steps over the terminator, after which the code reads past the end of
the template. -/
def readTok : List Char → Option (Tok × List Char)
  | [] => none
  | c :: map =>
    if c ≠ '%' then some (Tok.lit c, map)
    else if peek map = '%' then some (Tok.pct, map.tail)
    else if peek map = 'p' then some (Tok.port, map.tail)
    else
      let Nd := decide (peek map = '-')
      let map := if Nd then map.tail else map
      match map with
      | [] => none
      | d :: map =>
        let N := digitVal d
        let Np := decide (peek map = '+')
        let map := if Np then map.tail else map
        if peek map = '.' then
          let map := map.tail
          let Md := decide (peek map = '-')
          let map := if Md then map.tail else map
          match map with
          | [] => none
          | e :: map =>
            let M := digitVal e
            let Mp := decide (peek map = '+')
            let map := if Mp then map.tail else map
            some (Tok.field Nd N Np Md M Mp, map)
        else some (Tok.field Nd N Np false 0 false, map)

/-- Lines 236-318, the reads only: the tokens of the template in order, each
with the value of `map` at the entry of its pass (ghost output).  The result is
`none` when the scan reads past the end of the template.  Every pass consumes
a byte, so `fuel = strlen(map)` passes are enough. -/
def scanLoop : Nat → List Char → Option (List (Tok × List Char))
  | _, [] => some []
  | 0, _ :: _ => none
  | fuel + 1, c :: map =>
    match readTok (c :: map) with
    | none => none
    | some (t, rest) => (scanLoop fuel rest).map (fun ts => (t, c :: map) :: ts)

/-! ## The scratch buffer (lines 190-204, 234-319) -/

/-- What the host server and the request supply. -/
structure Env where
  /-- the constant `HUGE_STRING_LEN`, the capacity of `buf` -/
  hugeLen : Nat
  /-- the value of `ap_get_server_port(r)` -/
  port : Nat
  /-- the field `r->filename` (`none` is NULL) -/
  filename : Option (List Char)
  /-- whether `apr_stat` succeeds on the path with file type `APR_DIR` -/
  isDir : List Char → Bool

/-- The state of the accumulation.  `buf` holds the bytes `buf[0 .. dest)`, the
bytes appended since the last flush, so `dest - buf = buf.length`; none of them
is NUL, so this is also `buf` read as a C string once the terminator is stored
at `dest`.  `docroot = none` is NULL.  `writes` lists the index in `buf` of
every byte stored so far, in order (ghost). -/
structure Acc where
  buf : List Char
  docroot : Option (List Char)
  writes : List Nat
deriving DecidableEq, Repr

/-- Line 232-235: `docroot = NULL; dest = buf`. -/
def Acc.init : Acc := { buf := [], docroot := none, writes := [] }

/-- Lines 190-204. -/
def virtualroot_checkspace (env : Env) (st : Acc) (size : Int) : Acc :=
  if (st.buf.length : Int) + size > env.hugeLen then
    { buf := []
      docroot := some (match env.filename with
        | some f => f ++ st.buf
        | none => st.buf)
      writes := st.writes ++ [st.buf.length] }
  else st

/-- The store `*dest++ = c`. -/
def Acc.push (st : Acc) (c : Char) : Acc :=
  { st with buf := st.buf ++ [c], writes := st.writes ++ [st.buf.length] }

/-- A run of stores `*dest++ = c`, one for each byte of `cs` in order. -/
def Acc.pushAll (st : Acc) (cs : List Char) : Acc := cs.foldl Acc.push st

/-- Line 259: `dest += apr_snprintf(dest, 7, "%d", port)`, which stores at most
six digits and a terminator and returns the number of digits stored. -/
def Acc.printPort (st : Acc) (port : Nat) : Acc :=
  let ds := (Nat.toDigits 10 port).take 6
  { (st.pushAll ds) with writes := (st.pushAll ds).writes ++ [st.buf.length + ds.length] }

/-- Lines 237-317, the stores of one pass of the loop for the token it read. -/
def emit (env : Env) (name : List Char) (st : Acc) : Tok → Acc
  | Tok.lit c => (virtualroot_checkspace env st 1).push c
  | Tok.pct => (virtualroot_checkspace env st 1).push '%'
  | Tok.port => (virtualroot_checkspace env st 7).printPort env.port
  | Tok.field Nd N Np Md M Mp =>
    let r := resolveM (resolveN (dotsOf name) (ndotsOf name) N Nd Np) M Md Mp
    (virtualroot_checkspace env st (r.stop - r.start)).pushAll
      ((rangeBytes name r).map apr_tolower)

/-- Line 319: `*dest = 0`. -/
def Acc.terminate (st : Acc) : Acc := { st with writes := st.writes ++ [st.buf.length] }

/-- What can go wrong outside the C abstract machine's defined behaviour. -/
inductive Fault where
  /-- the scanner read past the terminator of the template -/
  | templateOverrun
  /-- the suffix comparison started in front of the server name -/
  | nameUnderrun
deriving DecidableEq, Repr

/-- Lines 223-319: the state when line 319 has run.  The reads of the template
never depend on the accumulated state, so the scan of the whole template is
taken first and the stores of every pass are folded over its tokens in order.
The variable `last` is assigned but never read and is left out. -/
def interpolateAcc (env : Env) (name map : List Char) : Except Fault Acc :=
  match scanLoop map.length map with
  | none => Except.error Fault.templateOverrun
  | some ts => Except.ok ((ts.foldl (fun st t => emit env name st t.1) Acc.init).terminate)

/-- Lines 321-332: the probe of `buf` and the returned string (`none` is NULL). -/
def finish (env : Env) (st : Acc) : Option (List Char) :=
  if !env.isDir st.buf then none
  else match st.docroot with
    | some d => some (d ++ st.buf)
    | none => some st.buf

/-- Lines 206-333. -/
def virtualroot_interpolate (env : Env) (name map : List Char) :
    Except Fault (Option (List Char)) :=
  (interpolateAcc env name map).map (finish env)

/-! ## The domain matcher (lines 366-419) -/

/-- What `mvr_get_document_root` leaves behind: the returned root, the note
`VIRTUALROOT_DOMAIN` of `r->notes`, and the bytes of the server-name buffer. -/
structure Outcome where
  root : Option (List Char)
  note : Option (List Char)
  name : List Char
deriving DecidableEq, Repr

/-- Lines 386-414: the loop over `conf->domains` from entry `i` on.  `nb` is the
server-name buffer and `iName` the length taken at line 385. -/
def domainLoop (env : Env) (map : List Char) (iName : Nat) :
    List (List Char) → List Char → Except Fault Outcome
  | [], nb => Except.ok { root := none, note := none, name := nb }
  | domain :: rest, nb =>
    if peek domain ≠ '.' ∨ peek domain.tail ≠ NUL then
      let iDomain := domain.length
      if iName < iDomain then Except.error Fault.nameUnderrun
      else
        let k := iName - iDomain
        if !strncmpEq (nb.drop k) domain iDomain then domainLoop env map iName rest nb
        else
          let t := nb.getD k NUL
          let nb1 := nb.set k NUL
          match virtualroot_interpolate env (cstr nb1) map with
          | Except.error f => Except.error f
          | Except.ok root =>
            let nb2 := nb1.set k t
            match root with
            | some path => Except.ok { root := some path, note := some domain, name := nb2 }
            | none => domainLoop env map iName rest nb2
    else
      match virtualroot_interpolate env (cstr nb) map with
      | Except.error f => Except.error f
      | Except.ok (some path) => Except.ok { root := some path, note := none, name := nb }
      | Except.ok none => domainLoop env map iName rest nb

/-- Lines 366-419.  `name` is the string `ap_get_server_name(r)`. -/
def mvr_get_document_root (env : Env) (conf : mvr_sconf_t) (name : List Char) :
    Except Fault Outcome :=
  match conf.doc_root with
  | none => Except.ok { root := none, note := none, name := name }
  | some map =>
    if conf.domains.length > 0 then domainLoop env map name.length conf.domains name
    else
      match virtualroot_interpolate env name map with
      | Except.error f => Except.error f
      | Except.ok root => Except.ok { root := root, note := none, name := name }

deriving instance DecidableEq for Except

/-! ## Definitions used to state the properties -/

/-- Offsets of the dots of `name`, its first byte being at offset `p`. -/
def dotPosFrom : List Char → Int → List Int
  | [], _ => []
  | c :: rest, p => if c = '.' then p :: dotPosFrom rest (p + 1) else dotPosFrom rest (p + 1)

/-- The dot offsets the index records: the first `MAXDOTS - 1` dots of `name`. -/
def recordedDots (name : List Char) : List Int := (dotPosFrom name 0).take (MAXDOTS - 1)

/-- The number of addressable labels: one more than the recorded dots. -/
def labelCount (name : List Char) : Nat := (recordedDots name).length + 1

/-- Start of label `k` (1-based, left to right): just after recorded dot `k-1`,
or the start of the name for the first label. -/
def labelStart (name : List Char) (k : Nat) : Int :=
  if k ≤ 1 then 0 else (recordedDots name).getD (k - 2) 0 + 1

/-- End of label `k` (1-based, left to right): recorded dot `k`, or the end of
the name for the last label. -/
def labelEnd (name : List Char) (k : Nat) : Int :=
  if labelCount name ≤ k then name.length else (recordedDots name).getD (k - 1) 0

/-- The ranges `(start, end)` of the dot-separated labels of `name`, read left
to right: `p` is the offset of the first byte of `name` and `s` the offset at
which the label under the cursor started. -/
def labelRanges : List Char → Int → Int → List (Int × Int)
  | [], p, s => [(s, p)]
  | c :: rest, p, s =>
    if c = '.' then (s, p) :: labelRanges rest (p + 1) (p + 1) else labelRanges rest (p + 1) s

/-- The digits of a field token are values in 0..9. -/
def Tok.digitsOK : Tok → Prop
  | Tok.field _ N _ _ M _ => 0 ≤ N ∧ N ≤ 9 ∧ 0 ≤ M ∧ M ≤ 9
  | _ => True

/-- The tokens `ts` are a complete scan of the template `p`: each token is read
at the pointer recorded with it, the next pointer lies inside the template
after at least one consumed byte, and the last read ends on the terminator. -/
def ScanTrace : List Char → List (Tok × List Char) → Prop
  | p, [] => p = []
  | p, (t, q) :: ts =>
    q = p ∧ ∃ rest, readTok p = some (t, rest) ∧ rest <:+ p.tail ∧ ScanTrace rest ts

/-- An optional byte of a directive: `[c]` when present, nothing otherwise. -/
def opt (b : Bool) (c : Char) : List Char := if b then [c] else []

/-- The format grammar in the words of the specification: a template is a
sequence of literal bytes (bytes other than `%`) and directives, a directive
being `%%`, `%p` or `%[-]N[+][.[-]M[+]]` with single decimal digits `N`, `M`. -/
inductive SpecTemplate : List Char → Prop
  | done : SpecTemplate []
  | lit (c : Char) (rest : List Char) : c ≠ '%' → SpecTemplate rest → SpecTemplate (c :: rest)
  | pct (rest : List Char) : SpecTemplate rest → SpecTemplate ('%' :: '%' :: rest)
  | port (rest : List Char) : SpecTemplate rest → SpecTemplate ('%' :: 'p' :: rest)
  | fieldN (Nd Np : Bool) (n : Char) (rest : List Char) :
      apr_isdigit n = true → SpecTemplate rest →
      SpecTemplate ('%' :: (opt Nd '-' ++ n :: (opt Np '+' ++ rest)))
  | fieldNM (Nd Np Md Mp : Bool) (n m : Char) (rest : List Char) :
      apr_isdigit n = true → apr_isdigit m = true → SpecTemplate rest →
      SpecTemplate ('%' :: (opt Nd '-' ++ n :: (opt Np '+' ++
        '.' :: (opt Md '-' ++ m :: (opt Mp '+' ++ rest)))))

/-- The same grammar with every directive taken as long as possible: a `+`
right after `N` or `M` belongs to the directive, and a `.` right after
`%[-]N[+]` always starts the part `.[-]M[+]`. -/
inductive GreedyTemplate : List Char → Prop
  | done : GreedyTemplate []
  | lit (c : Char) (rest : List Char) : c ≠ '%' → GreedyTemplate rest →
      GreedyTemplate (c :: rest)
  | pct (rest : List Char) : GreedyTemplate rest → GreedyTemplate ('%' :: '%' :: rest)
  | port (rest : List Char) : GreedyTemplate rest → GreedyTemplate ('%' :: 'p' :: rest)
  | fieldN (Nd Np : Bool) (n : Char) (rest : List Char) :
      apr_isdigit n = true → peek rest ≠ '.' → (Np = false → peek rest ≠ '+') →
      GreedyTemplate rest →
      GreedyTemplate ('%' :: (opt Nd '-' ++ n :: (opt Np '+' ++ rest)))
  | fieldNM (Nd Np Md Mp : Bool) (n m : Char) (rest : List Char) :
      apr_isdigit n = true → apr_isdigit m = true → (Mp = false → peek rest ≠ '+') →
      GreedyTemplate rest →
      GreedyTemplate ('%' :: (opt Nd '-' ++ n :: (opt Np '+' ++
        '.' :: (opt Md '-' ++ m :: (opt Mp '+' ++ rest)))))

/-- The range of a field of `name` after the N step (lines 280-297). -/
def rangeN (name : List Char) (N : Int) (Nd Np : Bool) : Range :=
  resolveN (dotsOf name) (ndotsOf name) N Nd Np

/-- One entry of the domain list in the words of the specification (4.6): the
wildcard `.` interpolates the whole name and records no domain; another suffix
counts only when the name ends with it, interpolates the name without its last
`len(suffix)` bytes, and records the suffix. -/
def candidate (env : Env) (map name domain : List Char) :
    Except Fault (Option (List Char × Option (List Char))) :=
  if domain = ['.'] then
    (virtualroot_interpolate env name map).map (fun r => r.map (fun path => (path, none)))
  else if domain <:+ name then
    (virtualroot_interpolate env (name.take (name.length - domain.length)) map).map
      (fun r => r.map (fun path => (path, some domain)))
  else Except.ok none

/-- The first entry of the list, in configured order, whose candidate
succeeds; "no document root" when none does. -/
def firstSuccess (env : Env) (map name : List Char) :
    List (List Char) → Except Fault (Option (List Char × Option (List Char)))
  | [] => Except.ok none
  | d :: ds =>
    match candidate env map name d with
    | Except.error f => Except.error f
    | Except.ok (some r) => Except.ok (some r)
    | Except.ok none => firstSuccess env map name ds

/-- The outcome that goes with a result of `firstSuccess`, the server-name
buffer holding `name`. -/
def outcomeOf (name : List Char) (r : Option (List Char × Option (List Char))) : Outcome :=
  { root := r.map Prod.fst, note := r.bind Prod.snd, name := name }

/-- The configuration states reachable through `mvr_create_server_config`,
`virtualroot_set`, `virtualroot_domain_set` and `mvr_merge_server_config`;
`isAbs` is `ap_os_is_path_absolute`. -/
inductive Reachable (isAbs : List Char → Bool) : mvr_sconf_t → Prop
  | create : Reachable isAbs mvr_create_server_config
  | template (conf : mvr_sconf_t) (map : List Char) :
      Reachable isAbs conf → Reachable isAbs (virtualroot_set isAbs conf map).2
  | domain (conf : mvr_sconf_t) (d : List Char) :
      Reachable isAbs conf → Reachable isAbs (virtualroot_domain_set conf d)
  | merge (parent child : mvr_sconf_t) :
      Reachable isAbs parent → Reachable isAbs child →
      Reachable isAbs (mvr_merge_server_config parent child)

/-- The indices at which lines 280-296 read the array `dots`, in order. -/
def dotsReads (ndots : Nat) (N : Int) (Nd Np : Bool) : List Int :=
  [0, (ndots : Int)] ++
    (if N ≠ 0 then
      if N > ndots then []
      else if !Nd then (N - 1) :: (if !Np then [N] else [])
      else (if !Np then [(ndots : Int) - N] else []) ++ [(ndots : Int) - N + 1]
    else [])

/-- The text one pass of the loop appends for its token: the literal byte, `%`,
the digits of the port, or the lower-cased bytes of the field. -/
def expansion (env : Env) (name : List Char) : Tok → List Char
  | Tok.lit c => [c]
  | Tok.pct => ['%']
  | Tok.port => (Nat.toDigits 10 env.port).take 6
  | Tok.field Nd N Np Md M Mp =>
    (rangeBytes name (resolveM (rangeN name N Nd Np) M Md Mp)).map apr_tolower

/-- The in-order concatenation of everything the tokens append. -/
def fullText (env : Env) (name : List Char) (ts : List Tok) : List Char :=
  (ts.map (expansion env name)).flatten

/-- The path text assembled at line 319: the flushed result string followed by
the remaining contents of the scratch buffer. -/
def Acc.assembled (st : Acc) : List Char := st.docroot.getD [] ++ st.buf

/-- The field token of `%0`. -/
def tokWhole : Tok := Tok.field false 0 false false 0 false

/-- The template `/%0%0...%0` with `k` fields `%0`. -/
def tplRepeat (k : Nat) : List Char := '/' :: (List.replicate k ['%', '0']).flatten

/-! ## Concrete inputs -/

/-- A host-server environment with the usual constants: `HUGE_STRING_LEN` is
8192 (httpd.h), the port is 80, `r->filename` is NULL, and exactly the paths
of `dirs` are existing directories. -/
def stdEnv (dirs : List (List Char)) : Env :=
  { hugeLen := 8192, port := 80, filename := none, isDir := fun p => decide (p ∈ dirs) }

/-- The host name `a.b`. -/
def hostAB : List Char := "a.b".toList

/-- The host name `www.a.b.example.com`. -/
def hostWww : List Char := "www.a.b.example.com".toList

/-- The template `/%1.html`. -/
def tplDotHtml : List Char := "/%1.html".toList

/-- A template using every kind of directive. -/
def tplAll : List Char := "/docroots/%-2+.-1+/%3/%p/%%".toList

/-- The host name `host.local` (ten bytes). -/
def hostLocal : List Char := "host.local".toList

/-- The template `//%0%0...%0` with 819 fields `%0` (1640 bytes). -/
def tplFill : List Char := '/' :: '/' :: (List.replicate 819 ['%', '0']).flatten

/-- The host name `b`. -/
def hostB : List Char := ['b']

/-- A configuration with the template `/%0` and the domains `a.b` and `.`. -/
def confOverlong : mvr_sconf_t :=
  { doc_root := some "/%0".toList, domains := ["a.b".toList, ".".toList] }

/-- The host name `x.a.example.com`. -/
def hostXa : List Char := "x.a.example.com".toList

/-- A configuration with the template `/%0` and the domains `a.example.com`
and `.`, in that order. -/
def confOrder : mvr_sconf_t :=
  { doc_root := some "/%0".toList, domains := ["a.example.com".toList, ".".toList] }

/-- The host name `a.b.c.d.e.f.g.h.i.j.k.l.m.n.o.p.q.r.s.t` (19 dots, 20
dot-separated parts). -/
def host20 : List Char := "a.b.c.d.e.f.g.h.i.j.k.l.m.n.o.p.q.r.s.t".toList

/-- A configuration built by `VirtualRootDomain .` and then
`VirtualRoot /docroots/%-2+.-1+/%3/%p/%%` on a fresh record. -/
def confBuilt : mvr_sconf_t :=
  (virtualroot_set unixAbs (virtualroot_domain_set mvr_create_server_config ['.']) tplAll).2

/-- A configuration with the template `/%0` and the domains `example.com` and
`b`, in that order. -/
def confTwoSuffixes : mvr_sconf_t :=
  { doc_root := some "/%0".toList, domains := ["example.com".toList, ['b']] }

/-- The record after `VirtualRoot /%0` on a fresh record. -/
def confSlashHost : mvr_sconf_t :=
  (virtualroot_set unixAbs mvr_create_server_config "/%0".toList).2

/-- The record after `VirtualRoot /%0` and then `VirtualRoot none` in the same
scope. -/
def confThenNone : mvr_sconf_t := (virtualroot_set unixAbs confSlashHost noneMarker).2

/-- The record of a child scope whose only directive is `VirtualRoot NoNe`,
merged over a parent scope with `VirtualRoot /%0`. -/
def confNoneOverParent : mvr_sconf_t :=
  mvr_merge_server_config confSlashHost
    (virtualroot_set unixAbs mvr_create_server_config "NoNe".toList).2

/-- A host name of 100 bytes `a`. -/
def hostA100 : List Char := List.replicate 100 'a'

/-! # Theorems -/

/-! ## The dot index -/

theorem scanDots_eq (name : List Char) : ∀ (p : Int) (dots : List Int),
    scanDots name p dots
      = dots ++ (dotPosFrom name p).take (MAXDOTS - dots.length) ++ [p + name.length] := by
  induction name with
  | nil => intro p dots; simp [scanDots, dotPosFrom]
  | cons c rest ih =>
    intro p dots
    by_cases hc : c = '.'
    · by_cases hl : dots.length < MAXDOTS
      · have h1 : MAXDOTS - dots.length = (MAXDOTS - (dots.length + 1)) + 1 := by omega
        simp only [scanDots, hc, hl, and_self, if_true, dotPosFrom, ih, List.length_append,
          List.length_singleton, List.length_cons, Nat.cast_add, Nat.cast_one]
        rw [h1, List.take_succ_cons]
        simp
        omega
      · have h0 : MAXDOTS - dots.length = 0 := by omega
        simp only [scanDots, hc, hl, and_false, if_false, dotPosFrom, ih, if_true, h0,
          List.take_zero, List.length_cons, Nat.cast_add, Nat.cast_one]
        simp
        omega
    · simp only [scanDots, hc, false_and, if_false, dotPosFrom, ih, List.length_cons,
        Nat.cast_add, Nat.cast_one]
      simp
      omega

theorem dotsOf_eq (name : List Char) :
    dotsOf name = -1 :: ((dotPosFrom name 0).take 18 ++ [(name.length : Int)]) := by
  simp [dotsOf, scanDots_eq, MAXDOTS]

theorem ndotsOf_eq (name : List Char) :
    ndotsOf name = min 18 (dotPosFrom name 0).length + 1 := by
  simp [ndotsOf, dotsOf_eq]

theorem dotsAt_natCast (dots : List Int) (k : Nat) : dotsAt dots (k : Int) = dots.getD k 0 := by
  simp [dotsAt]

theorem dotsAt_zero (name : List Char) : dotsAt (dotsOf name) 0 = -1 := by
  simp [dotsAt, dotsOf_eq]

theorem dotsAt_ndots (name : List Char) :
    dotsAt (dotsOf name) (ndotsOf name) = name.length := by
  rw [dotsAt_natCast, ndotsOf_eq, dotsOf_eq]
  simp [List.getD_eq_getElem?_getD, List.getElem?_append_right]

theorem le_of_mem_dotPosFrom (name : List Char) : ∀ (p x : Int), x ∈ dotPosFrom name p → p ≤ x := by
  induction name with
  | nil => intro p x h; simp [dotPosFrom] at h
  | cons c rest ih =>
    intro p x h
    by_cases hc : c = '.'
    · simp only [dotPosFrom, hc, if_true, List.mem_cons] at h
      rcases h with h | h
      · omega
      · have := ih _ _ h; omega
    · simp only [dotPosFrom, hc, if_false] at h
      have := ih _ _ h; omega

theorem neg_one_le_of_mem_dotsOf (name : List Char) (x : Int) (h : x ∈ dotsOf name) : -1 ≤ x := by
  rw [dotsOf_eq] at h
  simp only [List.mem_cons, List.mem_append, List.mem_singleton, List.not_mem_nil, or_false] at h
  rcases h with h | h | h
  · rw [h]
  · have := le_of_mem_dotPosFrom _ _ _ (List.mem_of_mem_take h); omega
  · omega

theorem neg_one_le_dotsAt (name : List Char) (k : Int) : -1 ≤ dotsAt (dotsOf name) k := by
  unfold dotsAt
  split
  · omega
  · rw [List.getD_eq_getElem?_getD]
    cases h : (dotsOf name)[k.toNat]? with
    | none => simp
    | some x =>
      simp only [Option.getD_some]
      exact neg_one_le_of_mem_dotsOf name x (List.getElem?_mem h)

theorem resolveN_start_nonneg (name : List Char) (N : Int) (Nd Np : Bool) :
    0 ≤ (resolveN (dotsOf name) (ndotsOf name) N Nd Np).start := by
  have h0 := dotsAt_zero name
  have h1 := neg_one_le_dotsAt name (N - 1)
  have h2 := neg_one_le_dotsAt name (ndotsOf name - N)
  unfold resolveN
  simp only [Range.underscore]
  split_ifs <;> simp <;> omega

theorem slice_slice (s : List Char) (a b c d : Int) (ha : 0 ≤ a) (hc : 0 ≤ c) (hd : a + d ≤ b) :
    slice (slice s a b) c d = slice s (a + c) (a + d) := by
  unfold slice
  rw [List.drop_take, List.drop_drop, List.take_take]
  have e1 : a.toNat + c.toNat = (a + c).toNat := by omega
  have e2 : min (d - c).toNat ((b - a).toNat - c.toNat) = (a + d - (a + c)).toNat := by omega
  rw [e1, e2]

/-! ## Field resolution -/

/-- C3: when `N` is greater than the number `ndots` of addressable labels, the
N-level range is the one-byte literal "_" whatever the dash and plus flags are,
its bytes are `_`, and a field without an M part appends exactly `_`. -/
theorem C3_out_of_range_label (env : Env) (name : List Char) (st : Acc) (N : Int) (Nd Np : Bool)
    (hN : (ndotsOf name : Int) < N) :
    resolveN (dotsOf name) (ndotsOf name) N Nd Np = Range.underscore
      ∧ rangeBytes name (resolveN (dotsOf name) (ndotsOf name) N Nd Np) = ['_']
      ∧ emit env name st (Tok.field Nd N Np false 0 false)
          = (virtualroot_checkspace env st 1).push '_' := by
  have h0 : N ≠ 0 := by omega
  have h1 : resolveN (dotsOf name) (ndotsOf name) N Nd Np = Range.underscore := by
    unfold resolveN
    simp [h0, hN]
  refine ⟨h1, ?_, ?_⟩
  · rw [h1]; rfl
  · simp only [emit, h1, resolveM]
    rfl

/-- C3, at the host name `a.b` (two labels) with `N = 3`: the template
`/docroots/%3` builds `/docroots/_`, which is returned when that directory
exists and is "no match" otherwise. -/
theorem C3_out_of_range_label_witness :
    ((ndotsOf hostAB : Int) < 3)
      ∧ (resolveN (dotsOf hostAB) (ndotsOf hostAB) 3 false false = Range.underscore
        ∧ rangeBytes hostAB (resolveN (dotsOf hostAB) (ndotsOf hostAB) 3 false false) = ['_']
        ∧ emit (stdEnv []) hostAB Acc.init (Tok.field false 3 false false 0 false)
            = (virtualroot_checkspace (stdEnv []) Acc.init 1).push '_')
      ∧ (interpolateAcc (stdEnv []) hostAB "/docroots/%3".toList).map Acc.buf
          = Except.ok "/docroots/_".toList
      ∧ virtualroot_interpolate (stdEnv ["/docroots/_".toList]) hostAB "/docroots/%3".toList
          = Except.ok (some "/docroots/_".toList)
      ∧ virtualroot_interpolate (stdEnv []) hostAB "/docroots/%3".toList = Except.ok none :=
  ⟨by decide, C3_out_of_range_label (stdEnv []) hostAB Acc.init 3 false false (by decide),
    by decide, by decide, by decide⟩

/-- C4 as stated fails: for `www.a.b.example.com` the field `%-2+` does not
extract `example.com`, and `/docroots/%-2+` does not build
`/docroots/example.com`. -/
theorem C4_counterexample :
    rangeBytes hostWww (resolveN (dotsOf hostWww) (ndotsOf hostWww) 2 true true)
        ≠ "example.com".toList
      ∧ (interpolateAcc (stdEnv []) hostWww "/docroots/%-2+".toList).map Acc.buf
        ≠ Except.ok "/docroots/example.com".toList := by
  decide

/-- C4, amended: for `www.a.b.example.com` the template `/docroots/%-2+` scans
as the literal `/docroots/` and the field `%-2+`, which extracts from the start
of the host name through the end of the second-to-last label, the text
`www.a.b.example`; the text built is `/docroots/www.a.b.example`. -/
theorem C4_right_counting_extend :
    (scanLoop 14 "/docroots/%-2+".toList).map (fun ts => (ts.map Prod.fst).drop 10)
        = some [Tok.field true 2 true false 0 false]
      ∧ resolveN (dotsOf hostWww) (ndotsOf hostWww) 2 true true
        = { lit := false, start := 0, stop := 15 }
      ∧ rangeBytes hostWww (resolveN (dotsOf hostWww) (ndotsOf hostWww) 2 true true)
        = "www.a.b.example".toList
      ∧ (interpolateAcc (stdEnv []) hostWww "/docroots/%-2+".toList).map Acc.buf
        = Except.ok "/docroots/www.a.b.example".toList
      ∧ virtualroot_interpolate (stdEnv ["/docroots/www.a.b.example".toList]) hostWww
          "/docroots/%-2+".toList = Except.ok (some "/docroots/www.a.b.example".toList) := by
  decide

theorem reslice_of_start_nonneg (name : List Char) (r : Range) (hs : 0 ≤ r.start) (M : Int)
    (hM1 : 1 ≤ M) :
    (r.stop - r.start < M → ∀ Md Mp, resolveM r M Md Mp = Range.underscore
        ∧ rangeBytes name (resolveM r M Md Mp) = ['_'])
      ∧ (M ≤ r.stop - r.start →
          (resolveM r M false false
              = { lit := r.lit, start := r.start + M - 1, stop := r.start + M }
            ∧ resolveM r M false true
              = { lit := r.lit, start := r.start + M - 1, stop := r.stop }
            ∧ resolveM r M true false
              = { lit := r.lit, start := r.stop - M, stop := r.stop - M + 1 }
            ∧ resolveM r M true true
              = { lit := r.lit, start := r.start, stop := r.stop - M + 1 })
          ∧ (rangeBytes name (resolveM r M false false) = slice (rangeBytes name r) (M - 1) M
            ∧ rangeBytes name (resolveM r M false true)
              = slice (rangeBytes name r) (M - 1) (r.stop - r.start)
            ∧ rangeBytes name (resolveM r M true false)
              = slice (rangeBytes name r) (r.stop - r.start - M) (r.stop - r.start - M + 1)
            ∧ rangeBytes name (resolveM r M true true)
              = slice (rangeBytes name r) 0 (r.stop - r.start - M + 1))
          ∧ ∀ Md Mp, (resolveM r M Md Mp).lit = r.lit
              ∧ r.start ≤ (resolveM r M Md Mp).start
              ∧ (resolveM r M Md Mp).start < (resolveM r M Md Mp).stop
              ∧ (resolveM r M Md Mp).stop ≤ r.stop) := by
  have hM0 : M ≠ 0 := by omega
  refine ⟨?_, ?_⟩
  · intro h Md Mp
    have hlt : r.stop - r.start < M := h
    have e : resolveM r M Md Mp = Range.underscore := by
      unfold resolveM
      simp [hM0, hlt]
    exact ⟨e, by rw [e]; rfl⟩
  · intro h
    have hle : ¬ (r.stop - r.start < M) := by
      have : M ≤ r.stop - r.start := h
      omega
    have e1 : resolveM r M false false
        = { lit := r.lit, start := r.start + M - 1, stop := r.start + M } := by
      unfold resolveM
      simp [hM0, hle]
    have e2 : resolveM r M false true
        = { lit := r.lit, start := r.start + M - 1, stop := r.stop } := by
      unfold resolveM
      simp [hM0, hle]
    have e3 : resolveM r M true false
        = { lit := r.lit, start := r.stop - M, stop := r.stop - M + 1 } := by
      unfold resolveM
      simp [hM0, hle]
    have e4 : resolveM r M true true
        = { lit := r.lit, start := r.start, stop := r.stop - M + 1 } := by
      unfold resolveM
      simp [hM0, hle]
    have hlen : M ≤ r.stop - r.start := h
    refine ⟨⟨e1, e2, e3, e4⟩, ⟨?_, ?_, ?_, ?_⟩, ?_⟩
    · rw [e1]
      simp only [rangeBytes]
      rw [slice_slice _ _ _ _ _ hs (by omega) (by omega)]
      congr 1
      omega
    · rw [e2]
      simp only [rangeBytes]
      rw [slice_slice _ _ _ _ _ hs (by omega) (by omega)]
      congr 1 <;> omega
    · rw [e3]
      simp only [rangeBytes]
      rw [slice_slice _ _ _ _ _ hs (by omega) (by omega)]
      congr 1 <;> omega
    · rw [e4]
      simp only [rangeBytes]
      rw [slice_slice _ _ _ _ _ hs (by omega) (by omega)]
      congr 1 <;> omega
    · intro Md Mp
      cases Md <;> cases Mp
      · rw [e1]; exact ⟨rfl, by simp only; omega, by simp only; omega, by simp only; omega⟩
      · rw [e2]; exact ⟨rfl, by simp only; omega, by simp only; omega, by simp only; omega⟩
      · rw [e3]; exact ⟨rfl, by simp only; omega, by simp only; omega, by simp only; omega⟩
      · rw [e4]; exact ⟨rfl, by simp only; omega, by simp only; omega, by simp only; omega⟩


/-- C6: the M step on the range `[s, e)` that the N step produced, for `M` in
1..9.  If `M` exceeds the length `e - s` the result is the literal "_".
Otherwise `.M` is the one byte at offset `M` from the left, `.M+` runs from it
to `e`, `.-M` is the one byte at offset `M` from the right, `.-M+` runs from
`s` through it; each result is a non-empty sub-range of `[s, e)` in the same
string, and its bytes are the corresponding slice of the bytes of `[s, e)`. -/
theorem C6_char_reslice (name : List Char) (N : Int) (Nd Np : Bool) (M : Int)
    (hM1 : 1 ≤ M) (_hM9 : M ≤ 9) :
    ((rangeN name N Nd Np).stop - (rangeN name N Nd Np).start < M →
        ∀ Md Mp, resolveM (rangeN name N Nd Np) M Md Mp = Range.underscore
          ∧ rangeBytes name (resolveM (rangeN name N Nd Np) M Md Mp) = ['_'])
      ∧ (M ≤ (rangeN name N Nd Np).stop - (rangeN name N Nd Np).start →
          (resolveM (rangeN name N Nd Np) M false false
              = { lit := (rangeN name N Nd Np).lit,
                  start := (rangeN name N Nd Np).start + M - 1,
                  stop := (rangeN name N Nd Np).start + M }
            ∧ resolveM (rangeN name N Nd Np) M false true
              = { lit := (rangeN name N Nd Np).lit,
                  start := (rangeN name N Nd Np).start + M - 1,
                  stop := (rangeN name N Nd Np).stop }
            ∧ resolveM (rangeN name N Nd Np) M true false
              = { lit := (rangeN name N Nd Np).lit,
                  start := (rangeN name N Nd Np).stop - M,
                  stop := (rangeN name N Nd Np).stop - M + 1 }
            ∧ resolveM (rangeN name N Nd Np) M true true
              = { lit := (rangeN name N Nd Np).lit,
                  start := (rangeN name N Nd Np).start,
                  stop := (rangeN name N Nd Np).stop - M + 1 })
          ∧ (rangeBytes name (resolveM (rangeN name N Nd Np) M false false)
              = slice (rangeBytes name (rangeN name N Nd Np)) (M - 1) M
            ∧ rangeBytes name (resolveM (rangeN name N Nd Np) M false true)
              = slice (rangeBytes name (rangeN name N Nd Np)) (M - 1)
                  ((rangeN name N Nd Np).stop - (rangeN name N Nd Np).start)
            ∧ rangeBytes name (resolveM (rangeN name N Nd Np) M true false)
              = slice (rangeBytes name (rangeN name N Nd Np))
                  ((rangeN name N Nd Np).stop - (rangeN name N Nd Np).start - M)
                  ((rangeN name N Nd Np).stop - (rangeN name N Nd Np).start - M + 1)
            ∧ rangeBytes name (resolveM (rangeN name N Nd Np) M true true)
              = slice (rangeBytes name (rangeN name N Nd Np)) 0
                  ((rangeN name N Nd Np).stop - (rangeN name N Nd Np).start - M + 1))
          ∧ ∀ Md Mp, (resolveM (rangeN name N Nd Np) M Md Mp).lit = (rangeN name N Nd Np).lit
              ∧ (rangeN name N Nd Np).start ≤ (resolveM (rangeN name N Nd Np) M Md Mp).start
              ∧ (resolveM (rangeN name N Nd Np) M Md Mp).start
                < (resolveM (rangeN name N Nd Np) M Md Mp).stop
              ∧ (resolveM (rangeN name N Nd Np) M Md Mp).stop ≤ (rangeN name N Nd Np).stop) :=
  reslice_of_start_nonneg name (rangeN name N Nd Np) (resolveN_start_nonneg name N Nd Np) M hM1

/-- C6 at the label `www` of `www.a.b.example.com` with `M = 2`: `%1.2` is `w`,
`%1.2+` is `ww`, `%1.-2` is `w`, `%1.-2+` is `ww`, and `%1.4` is `_`. -/
theorem C6_char_reslice_witness :
    (1 : Int) ≤ 2 ∧ (2 : Int) ≤ 9
      ∧ resolveM (resolveN (dotsOf hostWww) (ndotsOf hostWww) 1 false false) 2 false true
        = { lit := false, start := 1, stop := 3 }
      ∧ rangeBytes hostWww
          (resolveM (resolveN (dotsOf hostWww) (ndotsOf hostWww) 1 false false) 2 true true)
        = ['w', 'w']
      ∧ rangeBytes hostWww
          (resolveM (resolveN (dotsOf hostWww) (ndotsOf hostWww) 1 false false) 4 true true)
        = ['_'] :=
  ⟨by decide, by decide,
    (((C6_char_reslice hostWww 1 false false 2 (by decide) (by decide)).2 (by decide)).1.2.1).trans
      (by decide),
    (((C6_char_reslice hostWww 1 false false 2 (by decide) (by decide)).2 (by decide)).2.1.2.2.2).trans
      (by decide),
    ((C6_char_reslice hostWww 1 false false 4 (by decide) (by decide)).1 (by decide) true true).2⟩

theorem dotsOf_eq_recorded (name : List Char) :
    dotsOf name = -1 :: (recordedDots name ++ [(name.length : Int)]) := by
  rw [dotsOf_eq]; rfl

theorem ndotsOf_eq_labelCount (name : List Char) : ndotsOf name = labelCount name := by
  simp [ndotsOf, dotsOf_eq_recorded, labelCount]

theorem dotsAt_eq_labelStart (name : List Char) (k : Nat) (hk : k < labelCount name) :
    dotsAt (dotsOf name) (k : Int) + 1 = labelStart name (k + 1) := by
  rw [dotsAt_natCast, dotsOf_eq_recorded]
  unfold labelCount at hk
  cases k with
  | zero => simp [labelStart]
  | succ j =>
    have hj : j < (recordedDots name).length := by omega
    simp [labelStart, List.getD_eq_getElem?_getD, List.getElem?_append_left hj]

theorem dotsAt_eq_labelEnd (name : List Char) (k : Nat) (hk : k < labelCount name) :
    dotsAt (dotsOf name) ((k + 1 : Nat) : Int) = labelEnd name (k + 1) := by
  rw [dotsAt_natCast, dotsOf_eq_recorded]
  unfold labelEnd
  have hlc : labelCount name = (recordedDots name).length + 1 := rfl
  by_cases h : labelCount name ≤ k + 1
  · have hk2 : k = (recordedDots name).length := by omega
    subst hk2
    simp [h, List.getD_eq_getElem?_getD]
  · have hj : k < (recordedDots name).length := by omega
    simp [h, List.getD_eq_getElem?_getD, List.getElem?_append_left hj]

/-- The single label `%N`, left-counted: the range of label `N`. -/
theorem resolveN_left (name : List Char) (N : Nat) (h1 : 1 ≤ N) (hL : N ≤ labelCount name) :
    resolveN (dotsOf name) (ndotsOf name) N false false
      = { lit := false, start := labelStart name N, stop := labelEnd name N } := by
  obtain ⟨k, rfl⟩ : ∃ k, N = k + 1 := ⟨N - 1, by omega⟩
  have hs := dotsAt_eq_labelStart name k (by omega)
  have he := dotsAt_eq_labelEnd name k (by omega)
  have hnd := ndotsOf_eq_labelCount name
  unfold resolveN
  have c1 : ((k + 1 : Nat) : Int) ≠ 0 := by omega
  have c2 : ¬ (((k + 1 : Nat) : Int) > (ndotsOf name : Int)) := by omega
  have c3 : ((k + 1 : Nat) : Int) - 1 = (k : Int) := by omega
  simp only [c1, c2, c3, ne_eq, not_false_eq_true, if_true, if_false, Bool.not_false, hs, he]

/-! ## Labels and the split of the name at its dots -/

theorem length_dotPosFrom (name : List Char) : ∀ p : Int,
    (dotPosFrom name p).length = name.count '.' := by
  induction name with
  | nil => intro p; simp [dotPosFrom]
  | cons c rest ih =>
    intro p
    by_cases hc : c = '.'
    · simp [dotPosFrom, hc, ih]
    · have hc2 : ¬ (c == '.') = true := by simpa using hc
      simp [dotPosFrom, hc, ih, List.count_cons, hc2]

theorem labelRanges_eq_zip (name : List Char) : ∀ p s : Int,
    labelRanges name p s
      = List.zip (s :: (dotPosFrom name p).map (fun x => x + 1))
          (dotPosFrom name p ++ [p + name.length]) := by
  induction name with
  | nil => intro p s; simp [labelRanges, dotPosFrom]
  | cons c rest ih =>
    intro p s
    by_cases hc : c = '.'
    · simp only [labelRanges, hc, if_true, dotPosFrom, ih, List.map_cons, List.cons_append,
        List.zip_cons_cons, List.length_cons, Nat.cast_add, Nat.cast_one]
      rw [add_assoc p 1, add_comm 1]
    · simp only [labelRanges, hc, if_false, dotPosFrom, ih, List.length_cons, Nat.cast_add,
        Nat.cast_one]
      rw [add_assoc p 1, add_comm 1]

theorem slice_prefix (pre name : List Char) (s : Int) (h0 : 0 ≤ s) (hs : s ≤ pre.length) :
    slice (pre ++ name) s pre.length = pre.drop s.toNat := by
  unfold slice
  have h1 : s.toNat ≤ pre.length := by omega
  rw [List.drop_append_of_le_length h1, List.take_append_eq_append_take]
  have h2 : ((pre.length : Int) - s).toNat = (pre.drop s.toNat).length := by
    rw [List.length_drop]; omega
  rw [h2]
  simp

theorem labelRanges_map_slice (name : List Char) : ∀ (pre : List Char) (s : Int),
    0 ≤ s → s ≤ pre.length →
    (labelRanges name pre.length s).map (fun r => slice (pre ++ name) r.1 r.2)
      = (name.splitOnP (fun x => x == '.')).modifyHead (fun l => pre.drop s.toNat ++ l) := by
  induction name with
  | nil =>
    intro pre s h0 hs
    have := slice_prefix pre [] s h0 hs
    simp only [List.append_nil] at this
    simp [labelRanges, List.splitOnP_nil, List.modifyHead, this]
  | cons c rest ih =>
    intro pre s h0 hs
    have hfull : pre ++ c :: rest = (pre ++ [c]) ++ rest := by simp
    have hlen : ((pre.length : Int) + 1) = ((pre ++ [c]).length : Int) := by simp
    by_cases hc : c = '.'
    · subst hc
      have hsl := slice_prefix pre ('.' :: rest) s h0 hs
      have ih2 := ih (pre ++ ['.']) ((pre ++ ['.']).length : Int) (by omega) (le_refl _)
      rw [List.splitOnP_cons]
      simp only [labelRanges, if_true, List.map_cons, beq_self_eq_true, List.modifyHead,
        List.append_nil]
      rw [hsl]
      congr 1
      rw [hlen, hfull, ih2]
      have hne := List.splitOnP_ne_nil (fun x => x == '.') rest
      cases hsp : List.splitOnP (fun x => x == '.') rest with
      | nil => exact absurd hsp hne
      | cons l ls => simp [List.modifyHead]
    · have hs2 : s ≤ ((pre ++ [c]).length : Int) := by
        simp only [List.length_append, List.length_singleton, Nat.cast_add, Nat.cast_one]; omega
      have ih2 := ih (pre ++ [c]) s h0 hs2
      have hc2 : (c == '.') = false := by simpa using hc
      rw [List.splitOnP_cons]
      simp only [labelRanges, hc, if_false, hc2]
      rw [hlen, hfull, ih2]
      have hne := List.splitOnP_ne_nil (fun x => x == '.') rest
      have hd : s.toNat ≤ pre.length := by omega
      cases hsp : List.splitOnP (fun x => x == '.') rest with
      | nil => exact absurd hsp hne
      | cons l ls => simp [List.modifyHead, List.drop_append_of_le_length hd]

theorem splitOn_eq_labelRanges (name : List Char) :
    List.splitOn '.' name = (labelRanges name 0 0).map (fun r => slice name r.1 r.2) := by
  have h := labelRanges_map_slice name [] 0 (le_refl _) (by simp)
  simp only [List.length_nil, Nat.cast_zero, List.nil_append, Int.toNat_zero, List.drop_nil] at h
  rw [h]
  unfold List.splitOn
  have hne := List.splitOnP_ne_nil (fun x => x == '.') name
  cases hsp : List.splitOnP (fun x => x == '.') name with
  | nil => exact absurd hsp hne
  | cons l ls => simp [List.modifyHead]

theorem recordedDots_of_le (name : List Char) (hd : name.count '.' ≤ 18) :
    recordedDots name = dotPosFrom name 0 := by
  unfold recordedDots
  apply List.take_of_length_le
  rw [length_dotPosFrom]
  simp only [MAXDOTS]
  omega

theorem labelCount_of_le (name : List Char) (hd : name.count '.' ≤ 18) :
    labelCount name = name.count '.' + 1 := by
  rw [labelCount, recordedDots_of_le name hd, length_dotPosFrom]

theorem labelRanges_getElem? (name : List Char) (hd : name.count '.' ≤ 18) (k : Nat)
    (hk : k < labelCount name) :
    (labelRanges name 0 0)[k]? = some (labelStart name (k + 1), labelEnd name (k + 1)) := by
  rw [labelRanges_eq_zip, List.getElem?_zip_eq_some]
  have hrec := recordedDots_of_le name hd
  have hlc : labelCount name = (recordedDots name).length + 1 := rfl
  rw [← hrec]
  constructor
  · cases k with
    | zero => simp [labelStart]
    | succ j =>
      have hj : j < (recordedDots name).length := by omega
      simp [labelStart, List.getD_eq_getElem?_getD, hj]
  · unfold labelEnd
    by_cases h : labelCount name ≤ k + 1
    · have hk2 : k = (recordedDots name).length := by omega
      subst hk2
      simp [h]
    · have hj : k < (recordedDots name).length := by omega
      simp [h, List.getD_eq_getElem?_getD, List.getElem?_append_left hj, hj]

theorem splitOn_getElem? (name : List Char) (hd : name.count '.' ≤ 18) (k : Nat)
    (hk : k < labelCount name) :
    (List.splitOn '.' name)[k]?
      = some (slice name (labelStart name (k + 1)) (labelEnd name (k + 1))) := by
  rw [splitOn_eq_labelRanges, List.getElem?_map, labelRanges_getElem? name hd k hk]
  rfl

/-- C2: for a name with at most 18 dots and `1 <= N <= min(L, 9)`, where
`L = dots + 1`, the field `%N` (no dash, no plus, no M part) resolves to a
range inside the name, not to the literal "_": it runs from just after dot
`N-1` (or the start) to dot `N` (or the end), and its bytes are the `N`-th
element of the name split at `.`. -/
theorem C2_left_label_exact (name : List Char) (N : Nat) (hd : name.count '.' ≤ 18)
    (h1 : 1 ≤ N) (hL : N ≤ name.count '.' + 1) (h9 : N ≤ 9) :
    (resolveM (rangeN name N false false) 0 false false).lit = false
      ∧ (resolveM (rangeN name N false false) 0 false false).start = labelStart name N
      ∧ (resolveM (rangeN name N false false) 0 false false).stop = labelEnd name N
      ∧ (List.splitOn '.' name)[N - 1]?
        = some (rangeBytes name (resolveM (rangeN name N false false) 0 false false)) := by
  have hlc := labelCount_of_le name hd
  have hr : resolveM (rangeN name N false false) 0 false false
      = { lit := false, start := labelStart name N, stop := labelEnd name N } := by
    have h := resolveN_left name N h1 (by omega)
    unfold rangeN
    rw [h]
    simp [resolveM]
  obtain ⟨k, rfl⟩ : ∃ k, N = k + 1 := ⟨N - 1, by omega⟩
  refine ⟨by rw [hr], by rw [hr], by rw [hr], ?_⟩
  rw [hr, Nat.add_sub_cancel, splitOn_getElem? name hd k (by omega)]
  rfl

/-- C2 at `www.a.b.example.com` with `N = 4`: the field `%4` is `example`. -/
theorem C2_left_label_exact_witness :
    hostWww.count '.' ≤ 18 ∧ 1 ≤ 4 ∧ 4 ≤ hostWww.count '.' + 1 ∧ 4 ≤ 9
      ∧ (List.splitOn '.' hostWww)[4 - 1]?
        = some (rangeBytes hostWww (resolveM (rangeN hostWww (4 : Nat) false false) 0 false false))
      ∧ rangeBytes hostWww (resolveM (rangeN hostWww (4 : Nat) false false) 0 false false)
        = "example".toList :=
  ⟨by decide, by decide, by decide, by decide,
    (C2_left_label_exact hostWww 4 (by decide) (by decide) (by decide) (by decide)).2.2.2,
    by decide⟩

/-- C5: with `L` addressable labels and `1 <= N <= L`, the field `%N+` resolves
to the range from the start of left-counted label `N` to the end of the name,
and the field `%-N+` to the range from the start of the name to the end of the
label counted `N`-th from the right (left-counted label `L - N + 1`); with
`N = 0` the range is the whole name whatever the flags are. -/
theorem C5_plus_extension (name : List Char) (N : Nat) (h1 : 1 ≤ N)
    (hL : N ≤ labelCount name) :
    ndotsOf name = labelCount name
      ∧ resolveN (dotsOf name) (ndotsOf name) N false true
        = { lit := false, start := labelStart name N, stop := name.length }
      ∧ resolveN (dotsOf name) (ndotsOf name) N true true
        = { lit := false, start := 0, stop := labelEnd name (labelCount name - N + 1) }
      ∧ (∀ Nd Np, resolveN (dotsOf name) (ndotsOf name) 0 Nd Np
        = { lit := false, start := 0, stop := name.length })
      ∧ rangeBytes name (resolveN (dotsOf name) (ndotsOf name) N false true)
        = name.drop (labelStart name N).toNat
      ∧ rangeBytes name (resolveN (dotsOf name) (ndotsOf name) N true true)
        = name.take (labelEnd name (labelCount name - N + 1)).toNat
      ∧ (∀ Nd Np, rangeBytes name (resolveN (dotsOf name) (ndotsOf name) 0 Nd Np) = name) := by
  have hnd := ndotsOf_eq_labelCount name
  have h0 := dotsAt_zero name
  have hend := dotsAt_ndots name
  obtain ⟨k, rfl⟩ : ∃ k, N = k + 1 := ⟨N - 1, by omega⟩
  have hs := dotsAt_eq_labelStart name k (by omega)
  have he := dotsAt_eq_labelEnd name (labelCount name - (k + 1)) (by omega)
  have c1 : ((k + 1 : Nat) : Int) ≠ 0 := by omega
  have c2 : ¬ (((k + 1 : Nat) : Int) > (ndotsOf name : Int)) := by omega
  have c3 : ((k + 1 : Nat) : Int) - 1 = (k : Int) := by omega
  have c4 : (ndotsOf name : Int) - ((k + 1 : Nat) : Int) + 1
      = ((labelCount name - (k + 1) + 1 : Nat) : Int) := by omega
  have e1 : resolveN (dotsOf name) (ndotsOf name) ((k + 1 : Nat) : Int) false true
      = { lit := false, start := labelStart name (k + 1), stop := name.length } := by
    unfold resolveN
    simp only [c1, c2, c3, ne_eq, not_false_eq_true, if_true, if_false, Bool.not_false,
      Bool.not_true, hs, hend, Bool.false_eq_true]
  have e2 : resolveN (dotsOf name) (ndotsOf name) ((k + 1 : Nat) : Int) true true
      = { lit := false, start := 0, stop := labelEnd name (labelCount name - (k + 1) + 1) } := by
    unfold resolveN
    simp only [c1, c2, c4, ne_eq, not_false_eq_true, if_true, if_false, Bool.not_true,
      Bool.false_eq_true, he, h0]
    rfl
  have e0 : ∀ Nd Np, resolveN (dotsOf name) (ndotsOf name) 0 Nd Np
      = { lit := false, start := 0, stop := name.length } := by
    intro Nd Np
    unfold resolveN
    simp only [ne_eq, not_true_eq_false, if_false, h0, hend]
    rfl
  refine ⟨hnd, e1, e2, e0, ?_, ?_, ?_⟩
  · rw [e1]
    simp only [rangeBytes, slice, Bool.false_eq_true, if_false]
    apply List.take_of_length_le
    rw [List.length_drop]
    omega
  · rw [e2]
    simp [rangeBytes, slice]
  · intro Nd Np
    rw [e0]
    simp [rangeBytes, slice]

/-- C5 at `www.a.b.example.com` (five labels) with `N = 2`: `%2+` is
`a.b.example.com`, `%-2+` is `www.a.b.example`, and `%0` is the whole name. -/
theorem C5_plus_extension_witness :
    1 ≤ 2 ∧ 2 ≤ labelCount hostWww
      ∧ rangeBytes hostWww (resolveN (dotsOf hostWww) (ndotsOf hostWww) (2 : Nat) false true)
        = "a.b.example.com".toList
      ∧ rangeBytes hostWww (resolveN (dotsOf hostWww) (ndotsOf hostWww) (2 : Nat) true true)
        = "www.a.b.example".toList
      ∧ rangeBytes hostWww (resolveN (dotsOf hostWww) (ndotsOf hostWww) 0 true true)
        = hostWww :=
  ⟨by decide, by decide,
    ((C5_plus_extension hostWww 2 (by decide) (by decide)).2.2.2.2.1).trans (by decide),
    ((C5_plus_extension hostWww 2 (by decide) (by decide)).2.2.2.2.2.1).trans (by decide),
    (C5_plus_extension hostWww 2 (by decide) (by decide)).2.2.2.2.2.2 true true⟩

/-! ## Case folding -/

theorem tolower_cases (P : Char → Prop) (hup : ∀ n : Nat, 65 ≤ n → n ≤ 90 → P (Char.ofNat n))
    (c : Char) (h : c.toNat ≥ 65 ∧ c.toNat ≤ 90) : P c := by
  have := hup c.toNat h.1 h.2
  rwa [Char.ofNat_toNat] at this

theorem tolower_eq_dot (c : Char) : apr_tolower c = '.' ↔ c = '.' := by
  by_cases h : c.toNat ≥ 65 ∧ c.toNat ≤ 90
  · refine tolower_cases (fun c => apr_tolower c = '.' ↔ c = '.') ?_ c h
    intro n h1 h2
    interval_cases n <;> decide
  · simp [apr_tolower, Char.toLower, h]

theorem tolower_idem (c : Char) : apr_tolower (apr_tolower c) = apr_tolower c := by
  by_cases h : c.toNat ≥ 65 ∧ c.toNat ≤ 90
  · refine tolower_cases (fun c => apr_tolower (apr_tolower c) = apr_tolower c) ?_ c h
    intro n h1 h2
    interval_cases n <;> decide
  · have e : apr_tolower c = c := by simp [apr_tolower, Char.toLower, h]
    rw [e, e]

theorem scanDots_map_tolower (name : List Char) : ∀ (p : Int) (dots : List Int),
    scanDots (name.map apr_tolower) p dots = scanDots name p dots := by
  induction name with
  | nil => intro p dots; rfl
  | cons c rest ih =>
    intro p dots
    simp only [List.map_cons, scanDots, tolower_eq_dot, ih]

theorem dotsOf_map_tolower (name : List Char) : dotsOf (name.map apr_tolower) = dotsOf name :=
  scanDots_map_tolower name 0 [-1]

theorem ndotsOf_map_tolower (name : List Char) :
    ndotsOf (name.map apr_tolower) = ndotsOf name := by
  simp [ndotsOf, dotsOf_map_tolower]

theorem rangeBytes_map_tolower (name : List Char) (r : Range) :
    (rangeBytes (name.map apr_tolower) r).map apr_tolower
      = (rangeBytes name r).map apr_tolower := by
  unfold rangeBytes slice
  cases r.lit
  · simp only [Bool.false_eq_true, if_false, ← List.map_drop, ← List.map_take, List.map_map]
    congr 1
    funext c
    exact tolower_idem c
  · rfl

theorem emit_map_tolower (env : Env) (name : List Char) (st : Acc) (t : Tok) :
    emit env (name.map apr_tolower) st t = emit env name st t := by
  cases t with
  | lit c => rfl
  | pct => rfl
  | port => rfl
  | field Nd N Np Md M Mp =>
    simp only [emit, dotsOf_map_tolower, ndotsOf_map_tolower, rangeBytes_map_tolower]

/-- C7: the state built by `virtualroot_interpolate` (scratch contents, flushed
string and stores) for a host name equals the state built for the lower-cased
host name, so the returned path is the same too; `Example.COM` with
`/docroots/%1/%0` builds `/docroots/example/example.com`. -/
theorem C7_case_folding :
    (∀ (env : Env) (name map : List Char),
        interpolateAcc env name map = interpolateAcc env (name.map apr_tolower) map
          ∧ virtualroot_interpolate env name map
            = virtualroot_interpolate env (name.map apr_tolower) map)
      ∧ (interpolateAcc (stdEnv []) "Example.COM".toList "/docroots/%1/%0".toList).map Acc.buf
          = Except.ok "/docroots/example/example.com".toList
      ∧ virtualroot_interpolate (stdEnv ["/docroots/example/example.com".toList])
          "Example.COM".toList "/docroots/%1/%0".toList
          = Except.ok (some "/docroots/example/example.com".toList) := by
  refine ⟨?_, by decide, by decide⟩
  intro env name map
  have h : interpolateAcc env name map = interpolateAcc env (name.map apr_tolower) map := by
    unfold interpolateAcc
    simp only [emit_map_tolower]
  exact ⟨h, by unfold virtualroot_interpolate; rw [h]⟩

/-! ## The format check and the template scanner -/

theorem digitVal_of_isdigit (d : Char) (h : apr_isdigit d = true) :
    0 ≤ digitVal d ∧ digitVal d ≤ 9 := by
  unfold apr_isdigit Char.isDigit at h
  unfold digitVal Char.toNat
  simp only [Bool.and_eq_true, decide_eq_true_eq, ge_iff_le, UInt32.le_def] at h
  have h1 := h.1
  have h2 := h.2
  rw [BitVec.le_def] at h1 h2
  have e : d.val.toBitVec.toNat = d.val.toNat := rfl
  rw [e] at h1 h2
  have e48 : (UInt32.toBitVec 48).toNat = 48 := rfl
  have e57 : (UInt32.toBitVec 57).toNat = 57 := rfl
  omega

theorem not_isdigit_NUL : apr_isdigit NUL = false := by decide

/-- A digit under the cursor: the string is not at its terminator. -/
theorem cons_of_isdigit_peek (p : List Char) (h : apr_isdigit (peek p) = true) :
    ∃ d rest, p = d :: rest ∧ apr_isdigit d = true := by
  cases p with
  | nil => simp [peek, not_isdigit_NUL] at h
  | cons d rest => exact ⟨d, rest, rfl, by simpa [peek] using h⟩

theorem ite_tail_suffix (b : Prop) [Decidable b] (x : List Char) :
    (if b then x.tail else x) <:+ x := by
  split
  · exact List.tail_suffix x
  · exact List.suffix_refl x

theorem suffix_of_eq_cons {x y : List Char} {d : Char} (h : x = d :: y) : y <:+ x := by
  rw [h]; exact List.suffix_cons d y

theorem readTok_of_setStep (c : Char) (p q : List Char) (h : setStep (c :: p) = some q) :
    ∃ t, readTok (c :: p) = some (t, q) ∧ t.digitsOK ∧ q <:+ p := by
  unfold setStep at h
  unfold readTok
  by_cases hc : c = '%'
  · subst hc
    simp only [ne_eq, not_true_eq_false, if_false] at h ⊢
    by_cases hpct : peek p = '%'
    · simp only [hpct, or_true, if_true, Option.some.injEq] at h
      exact ⟨Tok.pct, by simp [hpct, h], trivial, by rw [← h]; exact List.tail_suffix p⟩
    · by_cases hp : peek p = 'p'
      · simp only [hp, true_or, if_true, Option.some.injEq] at h
        exact ⟨Tok.port, by simp [hp, h], trivial, by rw [← h]; exact List.tail_suffix p⟩
      · simp only [hp, hpct, or_self, if_false] at h ⊢
        by_cases hd1 : apr_isdigit (peek (if peek p = '-' then p.tail else p)) = true
        · obtain ⟨d, p1, e1, hdig⟩ := cons_of_isdigit_peek _ hd1
          simp only [hd1, Bool.not_true, Bool.false_eq_true, if_false] at h
          have e1' : (if decide (peek p = '-') = true then p.tail else p) = d :: p1 := by
            simpa using e1
          rw [e1] at h
          simp only [e1', List.tail_cons] at h ⊢
          by_cases hdot : peek (if peek p1 = '+' then p1.tail else p1) = '.'
          · have hdot' : peek (if decide (peek p1 = '+') = true then p1.tail else p1) = '.' := by
              simpa using hdot
            simp only [hdot, ne_eq, not_true_eq_false, if_false] at h
            simp only [hdot', if_true]
            by_cases hd2 : apr_isdigit (peek (if peek (if peek p1 = '+' then p1.tail else p1).tail = '-'
                then (if peek p1 = '+' then p1.tail else p1).tail.tail
                else (if peek p1 = '+' then p1.tail else p1).tail)) = true
            · obtain ⟨e, p5, e2, hdig2⟩ := cons_of_isdigit_peek _ hd2
              simp only [hd2, Bool.not_true, Bool.false_eq_true, if_false] at h
              rw [e2] at h
              simp only [List.tail_cons, Option.some.injEq] at h
              have e2' : (if decide (peek (if decide (peek p1 = '+') = true then p1.tail else p1).tail = '-') = true
                  then (if decide (peek p1 = '+') = true then p1.tail else p1).tail.tail
                  else (if decide (peek p1 = '+') = true then p1.tail else p1).tail) = e :: p5 := by
                simpa using e2
              simp only [e2']
              have h' : (if decide (peek p5 = '+') = true then p5.tail else p5) = q := by
                simpa using h
              have s1 := ite_tail_suffix (peek p = '-') p
              have s2 := suffix_of_eq_cons e1
              have s3 := ite_tail_suffix (peek p1 = '+') p1
              have s4 := List.tail_suffix (if peek p1 = '+' then p1.tail else p1)
              have s5 := ite_tail_suffix (peek (if peek p1 = '+' then p1.tail else p1).tail = '-')
                (if peek p1 = '+' then p1.tail else p1).tail
              have s6 := suffix_of_eq_cons e2
              have s7 := ite_tail_suffix (peek p5 = '+') p5
              have hsuf := s7.trans (s6.trans (s5.trans (s4.trans (s3.trans (s2.trans s1)))))
              rw [h] at hsuf
              subst h'
              exact ⟨_, rfl, ⟨(digitVal_of_isdigit d hdig).1, (digitVal_of_isdigit d hdig).2,
                  (digitVal_of_isdigit e hdig2).1, (digitVal_of_isdigit e hdig2).2⟩, hsuf⟩
            · simp [hd2] at h
          · have hdot' : ¬ peek (if decide (peek p1 = '+') = true then p1.tail else p1) = '.' := by
              simpa using hdot
            simp only [hdot, ne_eq, not_false_eq_true, if_true, Option.some.injEq] at h
            simp only [hdot', if_false]
            have h' : (if decide (peek p1 = '+') = true then p1.tail else p1) = q := by
              simpa using h
            have s1 := ite_tail_suffix (peek p = '-') p
            have s2 := suffix_of_eq_cons e1
            have s3 := ite_tail_suffix (peek p1 = '+') p1
            have hsuf := s3.trans (s2.trans s1)
            rw [h] at hsuf
            subst h'
            exact ⟨_, rfl, ⟨(digitVal_of_isdigit d hdig).1, (digitVal_of_isdigit d hdig).2,
                le_refl _, by decide⟩, hsuf⟩
        · simp [hd1] at h
  · simp only [ne_eq, hc, not_false_eq_true, if_true, Option.some.injEq] at h ⊢
    exact ⟨Tok.lit c, by simp [h], trivial, by rw [h]⟩


theorem scanLoop_of_setLoop : ∀ (fuel : Nat) (p : List Char) (ps : List (List Char)),
    setLoop fuel p = some ps →
    ∃ ts, scanLoop fuel p = some ts ∧ ts.map Prod.snd = ps ∧ ScanTrace p ts
      ∧ ∀ t ∈ ts, t.1.digitsOK := by
  intro fuel
  induction fuel with
  | zero =>
    intro p ps h
    cases p with
    | nil =>
      simp only [setLoop, Option.some.injEq] at h
      subst h
      exact ⟨[], by simp [scanLoop], rfl, rfl, by simp⟩
    | cons c p => simp [setLoop] at h
  | succ fuel ih =>
    intro p ps h
    cases p with
    | nil =>
      simp only [setLoop, Option.some.injEq] at h
      subst h
      exact ⟨[], by simp [scanLoop], rfl, rfl, by simp⟩
    | cons c p =>
      simp only [setLoop] at h
      cases hs : setStep (c :: p) with
      | none => simp [hs] at h
      | some q =>
        simp only [hs, Option.map_eq_some'] at h
        obtain ⟨ps', hps', rfl⟩ := h
        obtain ⟨t, hr, hok, hsuf⟩ := readTok_of_setStep c p q hs
        obtain ⟨ts', hts', hmap, htr, hall⟩ := ih q ps' hps'
        refine ⟨(t, c :: p) :: ts', ?_, ?_, ?_, ?_⟩
        · simp [scanLoop, hr, hts']
        · simp [hmap]
        · exact ⟨rfl, q, hr, hsuf, htr⟩
        · intro x hx
          rcases List.mem_cons.1 hx with rfl | hx
          · exact hok
          · exact hall x hx

/-- C9: when the sanity-check loop of `virtualroot_set` accepts a template,
visiting the pointers `ps`, the scanner of `virtualroot_interpolate` reads the
whole template without stepping over its terminator, starts every pass at
exactly the same pointers `ps`, and reads the digits `N` and `M` of every field
as values in 0..9; so the interpolation never faults on the template. -/
theorem C9_validator_scanner_agree (map : List Char) (ps : List (List Char))
    (h : setLoop map.length map = some ps) :
    ∃ ts, scanLoop map.length map = some ts
      ∧ ts.map Prod.snd = ps
      ∧ ScanTrace map ts
      ∧ (∀ t ∈ ts, t.1.digitsOK)
      ∧ ∀ (env : Env) (name : List Char), ∃ st, interpolateAcc env name map = Except.ok st := by
  obtain ⟨ts, h1, h2, h3, h4⟩ := scanLoop_of_setLoop map.length map ps h
  refine ⟨ts, h1, h2, h3, h4, ?_⟩
  intro env name
  unfold interpolateAcc
  rw [h1]
  exact ⟨_, rfl⟩

/-- C9 at the template `/docroots/%-2+.-1+/%3/%p/%%`: the sanity check accepts
it, and the scanner reads it at the same pointers, ending with the tokens of
`%-2+.-1+`, `/`, `%3`, `/`, `%p`, `/`, `%%`. -/
theorem C9_validator_scanner_agree_witness :
    ∃ ps, setLoop tplAll.length tplAll = some ps
      ∧ (∃ ts, scanLoop tplAll.length tplAll = some ts
        ∧ ts.map Prod.snd = ps
        ∧ ScanTrace tplAll ts
        ∧ (∀ t ∈ ts, t.1.digitsOK)
        ∧ ∀ (env : Env) (name : List Char), ∃ st, interpolateAcc env name tplAll = Except.ok st)
      ∧ (scanLoop tplAll.length tplAll).map (fun ts => (ts.map Prod.fst).drop 10)
        = some [Tok.field true 2 true true 1 true, Tok.lit '/',
            Tok.field false 3 false false 0 false, Tok.lit '/', Tok.port, Tok.lit '/',
            Tok.pct] :=
  match h : setLoop tplAll.length tplAll with
  | some ps => ⟨ps, rfl, C9_validator_scanner_agree tplAll ps h, by decide⟩
  | none => absurd h (by decide)

/-! ## Fuel -/

theorem length_ite_tail (b : Prop) [Decidable b] (x : List Char) :
    (if b then x.tail else x).length ≤ x.length :=
  (ite_tail_suffix b x).length_le

theorem readTok_length (p : List Char) (t : Tok) (rest : List Char)
    (h : readTok p = some (t, rest)) : rest.length < p.length := by
  cases p with
  | nil => simp [readTok] at h
  | cons c map =>
    unfold readTok at h
    by_cases hc : c = '%'
    · subst hc
      simp only [ne_eq, not_true_eq_false, if_false] at h
      have ht := (List.tail_suffix map).length_le
      by_cases hpct : peek map = '%'
      · simp only [hpct, if_true, Option.some.injEq, Prod.mk.injEq] at h
        rw [← h.2, List.length_cons]; omega
      · by_cases hp : peek map = 'p'
        · have : ¬ ('p' = '%') := by decide
          simp only [hp, this, if_true, if_false, Option.some.injEq, Prod.mk.injEq] at h
          rw [← h.2, List.length_cons]; omega
        · simp only [hp, hpct, if_false] at h
          have l0 := length_ite_tail (decide (peek map = '-') = true) map
          cases hm0 : (if decide (peek map = '-') = true then map.tail else map) with
          | nil =>
            simp only [hm0] at h
            exact absurd h (by simp)
          | cons d m1 =>
            rw [hm0] at l0
            simp only [hm0] at h
            have l1 := length_ite_tail (decide (peek m1 = '+') = true) m1
            by_cases hdot : peek (if decide (peek m1 = '+') = true then m1.tail else m1) = '.'
            · simp only [hdot, if_true] at h
              have l2 := (List.tail_suffix
                (if decide (peek m1 = '+') = true then m1.tail else m1)).length_le
              have l3 := length_ite_tail
                (decide (peek (if decide (peek m1 = '+') = true then m1.tail else m1).tail = '-')
                  = true)
                (if decide (peek m1 = '+') = true then m1.tail else m1).tail
              cases hm4 : (if decide (peek (if decide (peek m1 = '+') = true then m1.tail
                    else m1).tail = '-') = true
                  then (if decide (peek m1 = '+') = true then m1.tail else m1).tail.tail
                  else (if decide (peek m1 = '+') = true then m1.tail else m1).tail) with
              | nil =>
                simp only [hm4] at h
                exact absurd h (by simp)
              | cons e m5 =>
                rw [hm4] at l3
                simp only [hm4, Option.some.injEq, Prod.mk.injEq] at h
                have l5 := length_ite_tail (decide (peek m5 = '+') = true) m5
                rw [h.2] at l5
                simp only [List.length_cons] at l0 l3 ⊢
                omega
            · simp only [hdot, if_false, Option.some.injEq, Prod.mk.injEq] at h
              rw [h.2] at l1
              simp only [List.length_cons] at l0 ⊢
              omega
    · simp only [ne_eq, hc, not_false_eq_true, if_true, Option.some.injEq, Prod.mk.injEq] at h
      rw [← h.2, List.length_cons]; omega

/-- More fuel than the length of the template changes nothing in the scan. -/
theorem scanLoop_fuel : ∀ (fuel : Nat) (p : List Char) (fuel2 : Nat),
    p.length ≤ fuel → p.length ≤ fuel2 → scanLoop fuel p = scanLoop fuel2 p := by
  intro fuel
  induction fuel with
  | zero =>
    intro p fuel2 h1 _
    have : p = [] := List.length_eq_zero.1 (by omega)
    subst this
    cases fuel2 <;> rfl
  | succ f ih =>
    intro p fuel2 h1 h2
    cases p with
    | nil => cases fuel2 <;> rfl
    | cons c map =>
      obtain ⟨f2, rfl⟩ : ∃ f2, fuel2 = f2 + 1 := ⟨fuel2 - 1, by simp at h2; omega⟩
      simp only [scanLoop]
      cases hr : readTok (c :: map) with
      | none => rfl
      | some x =>
        obtain ⟨t, rest⟩ := x
        have hl := readTok_length _ _ _ hr
        simp only [List.length_cons] at hl h1 h2
        simp only [ih rest f2 (by omega) (by omega)]

/-- More fuel than the length of the template changes nothing in the check. -/
theorem setLoop_fuel : ∀ (fuel : Nat) (p : List Char) (fuel2 : Nat),
    p.length ≤ fuel → p.length ≤ fuel2 → setLoop fuel p = setLoop fuel2 p := by
  intro fuel
  induction fuel with
  | zero =>
    intro p fuel2 h1 _
    have : p = [] := List.length_eq_zero.1 (by omega)
    subst this
    cases fuel2 <;> rfl
  | succ f ih =>
    intro p fuel2 h1 h2
    cases p with
    | nil => cases fuel2 <;> rfl
    | cons c map =>
      obtain ⟨f2, rfl⟩ : ∃ f2, fuel2 = f2 + 1 := ⟨fuel2 - 1, by simp at h2; omega⟩
      simp only [setLoop]
      cases hr : setStep (c :: map) with
      | none => rfl
      | some q =>
        obtain ⟨_, _, _, hsuf⟩ := readTok_of_setStep c map q hr
        have hl := hsuf.length_le
        simp only [List.length_cons] at h1 h2
        simp only [ih q f2 (by omega) (by omega)]

/-! ## The accepted templates -/

theorem cons_of_peek {p : List Char} {x : Char} (h : peek p = x) (hx : x ≠ NUL) :
    p = x :: p.tail := by
  cases p with
  | nil => exact absurd h.symm hx
  | cons a rest => simp only [peek, List.headD_cons] at h; simp [h]

theorem split_opt (ch : Char) (hch : ch ≠ NUL) (p : List Char) :
    p = opt (decide (peek p = ch)) ch ++ (if peek p = ch then p.tail else p) := by
  by_cases h : peek p = ch
  · have := cons_of_peek h hch
    simp only [h, decide_True, opt, if_true, List.singleton_append]
    exact this
  · simp [h, opt]

theorem digit_not_special (n : Char) (h : apr_isdigit n = true) :
    n ≠ '%' ∧ n ≠ 'p' ∧ n ≠ '-' ∧ n ≠ '+' ∧ n ≠ '.' := by
  refine ⟨?_, ?_, ?_, ?_, ?_⟩ <;> (intro e; rw [e] at h; exact absurd h (by decide))

theorem greedy_of_setStep (c : Char) (p q : List Char) (h : setStep (c :: p) = some q)
    (hq : GreedyTemplate q) : GreedyTemplate (c :: p) := by
  unfold setStep at h
  by_cases hc : c = '%'
  · subst hc
    simp only [ne_eq, not_true_eq_false, if_false] at h
    by_cases hpct : peek p = '%'
    · simp only [hpct, or_true, if_true, Option.some.injEq] at h
      rw [cons_of_peek hpct (by decide), h]
      exact GreedyTemplate.pct q hq
    · by_cases hp : peek p = 'p'
      · simp only [hp, true_or, if_true, Option.some.injEq] at h
        rw [cons_of_peek hp (by decide), h]
        exact GreedyTemplate.port q hq
      · simp only [hp, hpct, or_self, if_false] at h
        have sp0 := split_opt '-' (by decide) p
        by_cases hd1 : apr_isdigit (peek (if peek p = '-' then p.tail else p)) = true
        · obtain ⟨d, p1, e1, hdig⟩ := cons_of_isdigit_peek _ hd1
          simp only [hd1, Bool.not_true, Bool.false_eq_true, if_false] at h
          rw [e1] at h sp0
          simp only [List.tail_cons] at h
          have sp1 := split_opt '+' (by decide) p1
          by_cases hdot : peek (if peek p1 = '+' then p1.tail else p1) = '.'
          · simp only [hdot, ne_eq, not_true_eq_false, if_false] at h
            have eX := cons_of_peek hdot (by decide)
            have sp2 := split_opt '-' (by decide) (if peek p1 = '+' then p1.tail else p1).tail
            by_cases hd2 : apr_isdigit (peek (if peek (if peek p1 = '+' then p1.tail else p1).tail = '-'
                then (if peek p1 = '+' then p1.tail else p1).tail.tail
                else (if peek p1 = '+' then p1.tail else p1).tail)) = true
            · obtain ⟨e, p5, e2, hdig2⟩ := cons_of_isdigit_peek _ hd2
              simp only [hd2, Bool.not_true, Bool.false_eq_true, if_false] at h
              rw [e2] at h sp2
              simp only [List.tail_cons, Option.some.injEq] at h
              have sp3 := split_opt '+' (by decide) p5
              rw [h] at sp3
              have hplus : decide (peek p5 = '+') = false → peek q ≠ '+' := by
                intro hf
                have hf' : ¬ peek p5 = '+' := by simpa using hf
                rw [← h]
                simp [hf']
              have hfull : p = opt (decide (peek p = '-')) '-' ++ d ::
                  (opt (decide (peek p1 = '+')) '+' ++ '.' ::
                    (opt (decide (peek (if peek p1 = '+' then p1.tail else p1).tail = '-')) '-'
                      ++ e :: (opt (decide (peek p5 = '+')) '+' ++ q))) := by
                rw [← sp3, ← sp2, ← eX, ← sp1, ← sp0]
              rw [hfull]
              exact GreedyTemplate.fieldNM _ _ _ _ d e q hdig hdig2 hplus hq
            · simp [hd2] at h
          · simp only [hdot, ne_eq, not_false_eq_true, if_true, Option.some.injEq] at h
            rw [h] at sp1 hdot
            have hplus : decide (peek p1 = '+') = false → peek q ≠ '+' := by
              intro hf
              have hf' : ¬ peek p1 = '+' := by simpa using hf
              rw [← h]
              simp [hf']
            have hfull : p = opt (decide (peek p = '-')) '-' ++ d ::
                (opt (decide (peek p1 = '+')) '+' ++ q) := by
              rw [← sp1, ← sp0]
            rw [hfull]
            exact GreedyTemplate.fieldN _ _ d q hdig hdot hplus hq
        · simp [hd1] at h
  · simp only [ne_eq, hc, not_false_eq_true, if_true, Option.some.injEq] at h
    rw [h]
    exact GreedyTemplate.lit c q hc hq

theorem greedy_of_setLoop : ∀ (fuel : Nat) (p : List Char) (ps : List (List Char)),
    setLoop fuel p = some ps → GreedyTemplate p := by
  intro fuel
  induction fuel with
  | zero =>
    intro p ps h
    cases p with
    | nil => exact GreedyTemplate.done
    | cons c p => simp [setLoop] at h
  | succ fuel ih =>
    intro p ps h
    cases p with
    | nil => exact GreedyTemplate.done
    | cons c p =>
      simp only [setLoop] at h
      cases hs : setStep (c :: p) with
      | none => simp [hs] at h
      | some q =>
        simp only [hs, Option.map_eq_some'] at h
        obtain ⟨ps', hps', _⟩ := h
        exact greedy_of_setStep c p q hs (ih q ps' hps')


theorem peek_cons (a : Char) (l : List Char) : peek (a :: l) = a := rfl

theorem setStep_fieldN (Nd Np : Bool) (n : Char) (rest : List Char)
    (hn : apr_isdigit n = true) (hdot : peek rest ≠ '.') (hplus : Np = false → peek rest ≠ '+') :
    setStep ('%' :: (opt Nd '-' ++ n :: (opt Np '+' ++ rest))) = some rest := by
  obtain ⟨n1, n2, n3, n4, n5⟩ := digit_not_special n hn
  cases Np
  · have hp := hplus rfl
    cases Nd <;>
      simp [setStep, opt, peek_cons, hn, n1, n2, n3, n4, n5, hdot, hp]
  · cases Nd <;>
      simp [setStep, opt, peek_cons, hn, n1, n2, n3, n4, n5, hdot]

theorem setStep_fieldNM (Nd Np Md Mp : Bool) (n m : Char) (rest : List Char)
    (hn : apr_isdigit n = true) (hm : apr_isdigit m = true)
    (hplus : Mp = false → peek rest ≠ '+') :
    setStep ('%' :: (opt Nd '-' ++ n :: (opt Np '+' ++
      '.' :: (opt Md '-' ++ m :: (opt Mp '+' ++ rest))))) = some rest := by
  obtain ⟨n1, n2, n3, n4, n5⟩ := digit_not_special n hn
  obtain ⟨m1, m2, m3, m4, m5⟩ := digit_not_special m hm
  cases Mp
  · have hp := hplus rfl
    cases Nd <;> cases Np <;> cases Md <;>
      simp [setStep, opt, peek_cons, hn, hm, n1, n2, n3, n4, n5, m1, m2, m3, m4, m5, hp]
  · cases Nd <;> cases Np <;> cases Md <;>
      simp [setStep, opt, peek_cons, hn, hm, n1, n2, n3, n4, n5, m1, m2, m3, m4, m5]

theorem setLoop_of_step (fuel : Nat) (c : Char) (p q : List Char)
    (hs : setStep (c :: p) = some q) (hq : ∃ ps, setLoop fuel q = some ps) :
    ∃ ps, setLoop (fuel + 1) (c :: p) = some ps := by
  obtain ⟨ps, hps⟩ := hq
  exact ⟨(c :: p) :: ps, by simp [setLoop, hs, hps]⟩

theorem setLoop_of_greedy (p : List Char) (h : GreedyTemplate p) :
    ∀ fuel : Nat, p.length ≤ fuel → ∃ ps, setLoop fuel p = some ps := by
  induction h with
  | done => intro fuel _; exact ⟨[], by cases fuel <;> rfl⟩
  | lit c rest hc _ ih =>
    intro fuel hf
    obtain ⟨f, rfl⟩ : ∃ f, fuel = f + 1 := ⟨fuel - 1, by simp at hf; omega⟩
    exact setLoop_of_step f c rest rest (by simp [setStep, hc]) (ih f (by simp at hf; omega))
  | pct rest _ ih =>
    intro fuel hf
    obtain ⟨f, rfl⟩ : ∃ f, fuel = f + 1 := ⟨fuel - 1, by simp at hf; omega⟩
    exact setLoop_of_step f '%' ('%' :: rest) rest (by simp [setStep, peek_cons])
      (ih f (by simp at hf; omega))
  | port rest _ ih =>
    intro fuel hf
    obtain ⟨f, rfl⟩ : ∃ f, fuel = f + 1 := ⟨fuel - 1, by simp at hf; omega⟩
    exact setLoop_of_step f '%' ('p' :: rest) rest (by simp [setStep, peek_cons])
      (ih f (by simp at hf; omega))
  | fieldN Nd Np n rest hn hdot hplus _ ih =>
    intro fuel hf
    obtain ⟨f, rfl⟩ : ∃ f, fuel = f + 1 := ⟨fuel - 1, by simp at hf; omega⟩
    exact setLoop_of_step f '%' _ rest (setStep_fieldN Nd Np n rest hn hdot hplus)
      (ih f (by simp at hf; omega))
  | fieldNM Nd Np Md Mp n m rest hn hm hplus _ ih =>
    intro fuel hf
    obtain ⟨f, rfl⟩ : ∃ f, fuel = f + 1 := ⟨fuel - 1, by simp at hf; omega⟩
    exact setLoop_of_step f '%' _ rest (setStep_fieldNM Nd Np Md Mp n m rest hn hm hplus)
      (ih f (by simp at hf; omega))

theorem setLoop_isSome_iff_greedy (map : List Char) :
    (∃ ps, setLoop map.length map = some ps) ↔ GreedyTemplate map :=
  ⟨fun ⟨ps, h⟩ => greedy_of_setLoop map.length map ps h,
    fun h => setLoop_of_greedy map h map.length (le_refl _)⟩

/-- C8 as stated fails at the absolute-path template `/%1.html`: it is a
sequence of literal bytes and directives (`/`, `%1`, `.`, `h`, `t`, `m`, `l`),
yet `virtualroot_set` returns "syntax error in format string". -/
theorem C8_counterexample :
    unixAbs tplDotHtml = true
      ∧ SpecTemplate tplDotHtml
      ∧ (virtualroot_set unixAbs mvr_create_server_config tplDotHtml).1
        = some SetError.badFormat
      ∧ ¬ ((virtualroot_set unixAbs mvr_create_server_config tplDotHtml).1 = none
        ↔ SpecTemplate tplDotHtml) := by
  have hspec : SpecTemplate tplDotHtml :=
    SpecTemplate.lit '/' _ (by decide)
      (SpecTemplate.fieldN false false '1' ['.', 'h', 't', 'm', 'l'] (by decide)
        (SpecTemplate.lit '.' _ (by decide) (SpecTemplate.lit 'h' _ (by decide)
          (SpecTemplate.lit 't' _ (by decide) (SpecTemplate.lit 'm' _ (by decide)
            (SpecTemplate.lit 'l' _ (by decide) SpecTemplate.done))))))
  have hbad : (virtualroot_set unixAbs mvr_create_server_config tplDotHtml).1
      = some SetError.badFormat := by decide
  refine ⟨by decide, hspec, hbad, ?_⟩
  intro hiff
  have := hiff.2 hspec
  rw [hbad] at this
  exact absurd this (by decide)

/-- C8, amended: on an absolute-path template `virtualroot_set` returns no
error exactly when the template is a sequence of literal bytes (bytes other
than `%`) and directives `%%`, `%p`, `%[-]N[+][.[-]M[+]]` in which every
directive is taken as long as possible (a `+` right after `N` or `M` belongs to
the directive, and a `.` right after `%[-]N[+]` always starts `.[-]M[+]`); on
every other absolute-path template it returns "syntax error in format
string". -/
theorem C8_validator_grammar (isAbs : List Char → Bool) (conf : mvr_sconf_t) (map : List Char)
    (habs : isAbs map = true) :
    ((virtualroot_set isAbs conf map).1 = none ↔ GreedyTemplate map)
      ∧ (¬ GreedyTemplate map →
          (virtualroot_set isAbs conf map).1 = some SetError.badFormat) := by
  have hiff := setLoop_isSome_iff_greedy map
  unfold virtualroot_set
  simp only [habs, Bool.not_true, Bool.false_eq_true, if_false]
  cases hs : setLoop map.length map with
  | none =>
    have hng : ¬ GreedyTemplate map := by
      intro hg
      obtain ⟨ps, hps⟩ := hiff.2 hg
      rw [hs] at hps
      exact absurd hps (by simp)
    exact ⟨⟨fun h => absurd h (by simp), fun h => absurd h hng⟩, fun _ => rfl⟩
  | some ps =>
    have hg : GreedyTemplate map := hiff.1 ⟨ps, hs⟩
    exact ⟨⟨fun _ => hg, fun _ => rfl⟩, fun h => absurd hg h⟩

/-- C8, amended, on Unix paths: `/docroots/%-2+.-1+/%3/%p/%%` is accepted and
is a greedy sequence; `/%1.html` is rejected and is not one. -/
theorem C8_validator_grammar_witness :
    unixAbs tplAll = true
      ∧ ((virtualroot_set unixAbs mvr_create_server_config tplAll).1 = none
        ↔ GreedyTemplate tplAll)
      ∧ GreedyTemplate tplAll
      ∧ ¬ GreedyTemplate tplDotHtml :=
  ⟨by decide,
    (C8_validator_grammar unixAbs mvr_create_server_config tplAll (by decide)).1,
    (C8_validator_grammar unixAbs mvr_create_server_config tplAll (by decide)).1.1 (by decide),
    fun hg => absurd
      ((C8_validator_grammar unixAbs mvr_create_server_config tplDotHtml (by decide)).1.2 hg)
      (by decide)⟩

/-! ## The scratch buffer -/

theorem scanLoop_replicate_slash : ∀ (n fuel : Nat), n ≤ fuel →
    ∃ ts, scanLoop fuel (List.replicate n '/') = some ts
      ∧ ts.map Prod.fst = List.replicate n (Tok.lit '/') := by
  intro n
  induction n with
  | zero => intro fuel _; exact ⟨[], by cases fuel <;> rfl, rfl⟩
  | succ n ih =>
    intro fuel hf
    obtain ⟨f, rfl⟩ : ∃ f, fuel = f + 1 := ⟨fuel - 1, by omega⟩
    obtain ⟨ts, hts, hmap⟩ := ih f (by omega)
    refine ⟨(Tok.lit '/', '/' :: List.replicate n '/') :: ts, ?_, ?_⟩
    · have hr : readTok ('/' :: List.replicate n '/') = some (Tok.lit '/', List.replicate n '/') := by
        simp [readTok]
      simp [List.replicate_succ, scanLoop, hr, hts]
    · simp [List.replicate_succ, hmap]

theorem length_buf_emit_slashes (env : Env) (name : List Char) : ∀ (n : Nat) (st : Acc),
    st.buf.length + n ≤ env.hugeLen →
    ((List.replicate n (Tok.lit '/')).foldl (emit env name) st).buf.length
      = st.buf.length + n := by
  intro n
  induction n with
  | zero => intro st _; rfl
  | succ n ih =>
    intro st h
    have hno : ¬ ((st.buf.length : Int) + 1 > (env.hugeLen : Int)) := by omega
    have hstep : emit env name st (Tok.lit '/') = st.push '/' := by
      simp only [emit, virtualroot_checkspace, hno, if_false]
    rw [List.replicate_succ, List.foldl_cons, hstep, ih (st.push '/')]
    · simp only [Acc.push, List.length_append, List.length_singleton]; omega
    · simp only [Acc.push, List.length_append, List.length_singleton]; omega

theorem greedy_replicate_slash (n : Nat) : GreedyTemplate (List.replicate n '/') := by
  induction n with
  | zero => exact GreedyTemplate.done
  | succ n ih => exact GreedyTemplate.lit '/' _ (by decide) ih

theorem unixAbs_replicate_slash (n : Nat) (h : 0 < n) :
    unixAbs (List.replicate n '/') = true := by
  obtain ⟨k, rfl⟩ : ∃ k, n = k + 1 := ⟨n - 1, by omega⟩
  simp [unixAbs, peek, List.replicate_succ]

theorem accepts_replicate_slash (conf : mvr_sconf_t) (n : Nat) (h : 0 < n) :
    (virtualroot_set unixAbs conf (List.replicate n '/')).1 = none := by
  obtain ⟨ps, hps⟩ := setLoop_of_greedy _ (greedy_replicate_slash n) n (by simp)
  have habs := unixAbs_replicate_slash n h
  unfold virtualroot_set
  simp only [habs, Bool.not_true, Bool.false_eq_true, if_false, List.length_replicate, hps]

theorem overflow_of_full_template (env : Env) (name : List Char) :
    ∃ st, interpolateAcc env name (List.replicate env.hugeLen '/') = Except.ok st
      ∧ env.hugeLen ∈ st.writes := by
  obtain ⟨ts, hts, hmap⟩ := scanLoop_replicate_slash env.hugeLen env.hugeLen (le_refl _)
  have hfold : ts.foldl (fun st t => emit env name st t.1) Acc.init
      = (ts.map Prod.fst).foldl (emit env name) Acc.init := by
    rw [List.foldl_map]
  have hlen := length_buf_emit_slashes env name env.hugeLen Acc.init (by simp [Acc.init])
  have hrun : interpolateAcc env name (List.replicate env.hugeLen '/')
      = Except.ok ((ts.foldl (fun st t => emit env name st t.1) Acc.init).terminate) := by
    unfold interpolateAcc
    simp only [List.length_replicate, hts]
  refine ⟨_, hrun, ?_⟩
  rw [hfold, hmap]
  simp only [Acc.terminate, List.mem_append, List.mem_singleton]
  right
  rw [hlen]
  simp [Acc.init]

theorem peek_join_pct0 (k : Nat) :
    peek (List.replicate k ['%', '0']).flatten = NUL ∨ peek (List.replicate k ['%', '0']).flatten = '%' := by
  cases k with
  | zero => left; rfl
  | succ k => right; simp [List.replicate_succ, peek]

theorem readTok_pct0 (k : Nat) :
    readTok ('%' :: '0' :: (List.replicate k ['%', '0']).flatten)
      = some (Tok.field false 0 false false 0 false, (List.replicate k ['%', '0']).flatten) := by
  have h1 : ¬ peek (List.replicate k ['%', '0']).flatten = '+' := by
    rcases peek_join_pct0 k with h | h <;> rw [h] <;> decide
  have h2 : ¬ peek (List.replicate k ['%', '0']).flatten = '.' := by
    rcases peek_join_pct0 k with h | h <;> rw [h] <;> decide
  have h3 : digitVal '0' = 0 := by decide
  simp [readTok, peek_cons, h1, h2, h3]

theorem scanLoop_step (fuel : Nat) (c : Char) (map : List Char) (t : Tok) (rest : List Char)
    (h : readTok (c :: map) = some (t, rest)) :
    scanLoop (fuel + 1) (c :: map) = (scanLoop fuel rest).map (fun ts => (t, c :: map) :: ts) := by
  simp only [scanLoop, h]

theorem scanLoop_pct0 : ∀ (k fuel : Nat), 2 * k ≤ fuel →
    ∃ ts, scanLoop fuel (List.replicate k ['%', '0']).flatten = some ts
      ∧ ts.map Prod.fst = List.replicate k (Tok.field false 0 false false 0 false) := by
  intro k
  induction k with
  | zero => intro fuel _; exact ⟨[], by cases fuel <;> rfl, rfl⟩
  | succ k ih =>
    intro fuel hf
    obtain ⟨f, rfl⟩ : ∃ f, fuel = f + 1 := ⟨fuel - 1, by omega⟩
    obtain ⟨ts, hts, hmap⟩ := ih f (by omega)
    have hj : (List.replicate (k + 1) ['%', '0']).flatten
        = '%' :: '0' :: (List.replicate k ['%', '0']).flatten := by
      simp [List.replicate_succ]
    refine ⟨(Tok.field false 0 false false 0 false, '%' :: '0' :: (List.replicate k ['%', '0']).flatten)
      :: ts, ?_, ?_⟩
    · rw [hj, scanLoop_step f _ _ _ _ (readTok_pct0 k), hts]
      rfl
    · simp [List.replicate_succ, hmap]

theorem length_buf_pushAll (cs : List Char) : ∀ st : Acc,
    (st.pushAll cs).buf.length = st.buf.length + cs.length := by
  induction cs with
  | nil => intro st; rfl
  | cons c cs ih =>
    intro st
    have : st.pushAll (c :: cs) = (st.push c).pushAll cs := rfl
    rw [this, ih]
    simp [Acc.push]
    omega

theorem emit_pct0 (env : Env) (name : List Char) (st : Acc) :
    emit env name st (Tok.field false 0 false false 0 false)
      = (virtualroot_checkspace env st name.length).pushAll (name.map apr_tolower) := by
  have h0 := dotsAt_zero name
  have h1 := dotsAt_ndots name
  have hr : resolveM (resolveN (dotsOf name) (ndotsOf name) 0 false false) 0 false false
      = { lit := false, start := 0, stop := name.length } := by
    simp [resolveM, resolveN, h0, h1]
  simp only [emit, hr]
  simp [rangeBytes, slice]

theorem length_buf_emit_pct0 (env : Env) (name : List Char) : ∀ (k : Nat) (st : Acc),
    st.buf.length + k * name.length ≤ env.hugeLen →
    ((List.replicate k (Tok.field false 0 false false 0 false)).foldl (emit env name) st).buf.length
      = st.buf.length + k * name.length := by
  intro k
  induction k with
  | zero => intro st _; simp
  | succ k ih =>
    intro st h
    have hmul : (k + 1) * name.length = k * name.length + name.length := by ring
    rw [hmul] at h ⊢
    generalize k * name.length = m at h ih ⊢
    have hno : ¬ ((st.buf.length : Int) + (name.length : Int) > (env.hugeLen : Int)) := by
      omega
    have hstep : (emit env name st (Tok.field false 0 false false 0 false)).buf.length
        = st.buf.length + name.length := by
      rw [emit_pct0]
      simp only [virtualroot_checkspace, hno, if_false, length_buf_pushAll, List.length_map]
    rw [List.replicate_succ, List.foldl_cons, ih _ (by rw [hstep]; omega), hstep]
    omega

theorem overflow_of_tplFill :
    ∃ st, interpolateAcc (stdEnv []) hostLocal tplFill = Except.ok st ∧ 8192 ∈ st.writes := by
  obtain ⟨ts, hts, hmap⟩ := scanLoop_pct0 819 1638 (by omega)
  have hscan : scanLoop tplFill.length tplFill
      = some ((Tok.lit '/', tplFill) :: (Tok.lit '/', tplFill.tail) :: ts) := by
    have hl : tplFill.length = 1638 + 1 + 1 := by simp [tplFill]
    rw [hl]
    have r1 : ∀ rest, readTok ('/' :: rest) = some (Tok.lit '/', rest) := by
      intro rest; simp [readTok]
    unfold tplFill
    rw [scanLoop_step _ _ _ _ _ (r1 _), scanLoop_step _ _ _ _ _ (r1 _), hts]
    rfl
  have hrun : interpolateAcc (stdEnv []) hostLocal tplFill
      = Except.ok ((((Tok.lit '/', tplFill) :: (Tok.lit '/', tplFill.tail) :: ts).foldl
          (fun st t => emit (stdEnv []) hostLocal st t.1) Acc.init).terminate) := by
    unfold interpolateAcc
    rw [hscan]
  refine ⟨_, hrun, ?_⟩
  have hfold : ∀ st, ts.foldl (fun st t => emit (stdEnv []) hostLocal st t.1) st
      = (ts.map Prod.fst).foldl (emit (stdEnv []) hostLocal) st := by
    intro st; rw [List.foldl_map]
  simp only [List.foldl_cons, hfold, hmap, Acc.terminate, List.mem_append, List.mem_singleton]
  right
  rw [length_buf_emit_pct0]
  · decide
  · decide


theorem greedy_pct0 (k : Nat) : GreedyTemplate (List.replicate k ['%', '0']).flatten := by
  induction k with
  | zero => exact GreedyTemplate.done
  | succ k ih =>
    have h1 : peek (List.replicate k ['%', '0']).flatten ≠ '+' := by
      rcases peek_join_pct0 k with h | h <;> rw [h] <;> decide
    have h2 : peek (List.replicate k ['%', '0']).flatten ≠ '.' := by
      rcases peek_join_pct0 k with h | h <;> rw [h] <;> decide
    exact GreedyTemplate.fieldN false false '0' _ (by decide) h2 (fun _ => h1) ih

theorem accepts_tplFill : (virtualroot_set unixAbs mvr_create_server_config tplFill).1 = none := by
  have hg : GreedyTemplate tplFill :=
    GreedyTemplate.lit '/' _ (by decide) (GreedyTemplate.lit '/' _ (by decide) (greedy_pct0 819))
  obtain ⟨ps, hps⟩ := setLoop_of_greedy _ hg tplFill.length (le_refl _)
  have habs : unixAbs tplFill = true := rfl
  unfold virtualroot_set
  simp only [habs, Bool.not_true, Bool.false_eq_true, if_false, hps]

/-- C10 fails on the code.  With `HUGE_STRING_LEN = 8192`, the host name
`host.local` and the accepted template `//%0%0...%0` (819 fields) fill `buf`
exactly, no flush happens, and the final terminator of line 319 is stored at
index 8192, one past the end of `buf`.  The same happens for every capacity
with the template made of `HUGE_STRING_LEN` slashes. -/
theorem C10_terminator_overflow :
    (virtualroot_set unixAbs mvr_create_server_config tplFill).1 = none
      ∧ (∃ st, interpolateAcc (stdEnv []) hostLocal tplFill = Except.ok st
          ∧ 8192 ∈ st.writes ∧ ¬ ∀ i ∈ st.writes, i < (stdEnv []).hugeLen)
      ∧ ∀ (env : Env) (name : List Char),
          ∃ st, interpolateAcc env name (List.replicate env.hugeLen '/') = Except.ok st
            ∧ env.hugeLen ∈ st.writes := by
  refine ⟨accepts_tplFill, ?_, overflow_of_full_template⟩
  obtain ⟨st, h1, h2⟩ := overflow_of_tplFill
  refine ⟨st, h1, h2, ?_⟩
  intro hall
  exact absurd (hall _ h2) (lt_irrefl _)

/-! ## The domain matcher -/

theorem cstr_of_not_mem (b : List Char) (h : NUL ∉ b) : cstr b = b := by
  unfold cstr
  rw [List.takeWhile_eq_self_iff]
  intro x hx
  simp only [bne_iff_ne, ne_eq]
  intro e
  exact h (e ▸ hx)

theorem cstr_set_NUL (b : List Char) (h : NUL ∉ b) (k : Nat) (hk : k ≤ b.length) :
    cstr (b.set k NUL) = b.take k := by
  by_cases hlt : k < b.length
  · rw [List.set_eq_take_append_cons_drop, if_pos hlt]
    unfold cstr
    rw [List.takeWhile_append_of_pos]
    · simp [List.takeWhile_cons]
    · intro x hx
      simp only [bne_iff_ne, ne_eq]
      intro e
      exact h (e ▸ List.mem_of_mem_take hx)
  · have hk2 : k = b.length := by omega
    rw [List.set_eq_of_length_le (by omega), cstr_of_not_mem b h, hk2, List.take_length]

theorem set_NUL_restore (b : List Char) (k : Nat) : (b.set k NUL).set k (b.getD k NUL) = b := by
  rw [List.set_set]
  by_cases hlt : k < b.length
  · apply List.ext_getElem
    · simp
    · intro i h1 h2
      by_cases hik : k = i
      · subst hik
        simp [List.getD_eq_getElem?_getD, List.getElem?_eq_getElem hlt]
      · simp [List.getElem_set, hik]
  · exact List.set_eq_of_length_le (by omega)

theorem strncmpEq_drop_iff (name d : List Char) (hle : d.length ≤ name.length) :
    strncmpEq (name.drop (name.length - d.length)) d d.length = true ↔ d <:+ name := by
  unfold strncmpEq
  rw [decide_eq_true_iff, List.suffix_iff_eq_drop, List.take_length]
  have hl : (name.drop (name.length - d.length)).length = d.length := by
    rw [List.length_drop]; omega
  rw [List.take_of_length_le (by omega)]
  exact eq_comm

theorem not_wildcard_iff (d : List Char) (h : NUL ∉ d) :
    (peek d ≠ '.' ∨ peek d.tail ≠ NUL) ↔ d ≠ ['.'] := by
  cases d with
  | nil => simp [peek]; decide
  | cons a rest =>
    cases rest with
    | nil => simp [peek]
    | cons b rest2 =>
      have hb : b ≠ NUL := by
        intro e; apply h; rw [← e]; simp
      simp [peek, hb]


/-- The domain loop returns the first candidate that succeeds, in configured
order, and leaves the server name as it was, provided no configured suffix is
longer than the server name. -/
theorem domainLoop_eq_firstSuccess (env : Env) (map name : List Char) (hname : NUL ∉ name) :
    ∀ domains : List (List Char), (∀ d ∈ domains, NUL ∉ d) →
      (∀ d ∈ domains, d ≠ ['.'] → d.length ≤ name.length) →
      domainLoop env map name.length domains name
        = (firstSuccess env map name domains).map (outcomeOf name) := by
  intro domains
  induction domains with
  | nil => intro _ _; rfl
  | cons d ds ih =>
    intro hnul hlen
    have ih' := ih (fun x hx => hnul x (List.mem_cons_of_mem d hx))
      (fun x hx => hlen x (List.mem_cons_of_mem d hx))
    have hdn : NUL ∉ d := hnul d (List.mem_cons_self d ds)
    by_cases hw : d = ['.']
    · have hcond : ¬ (peek d ≠ '.' ∨ peek d.tail ≠ NUL) := by
        rw [not_wildcard_iff d hdn]; exact not_not.2 hw
      simp only [domainLoop, hcond, if_false, cstr_of_not_mem name hname, firstSuccess,
        candidate, hw, if_true]
      cases hi : virtualroot_interpolate env name map with
      | error f => rfl
      | ok r =>
        cases r with
        | none => simpa [Except.map] using ih'
        | some path => rfl
    · have hcond : peek d ≠ '.' ∨ peek d.tail ≠ NUL := (not_wildcard_iff d hdn).2 hw
      have hle : d.length ≤ name.length := hlen d (List.mem_cons_self d ds) hw
      have hnlt : ¬ name.length < d.length := by omega
      simp only [domainLoop, hcond, if_true, hnlt, if_false, firstSuccess, candidate, hw]
      by_cases hsuf : d <:+ name
      · have hcmp := (strncmpEq_drop_iff name d hle).2 hsuf
        simp only [hcmp, Bool.not_true, Bool.false_eq_true, if_false, hsuf, if_true,
          cstr_set_NUL name hname (name.length - d.length) (by omega), set_NUL_restore]
        cases hi : virtualroot_interpolate env (List.take (name.length - d.length) name) map with
        | error f => rfl
        | ok r =>
          cases r with
          | none => simpa [Except.map] using ih'
          | some path => rfl
      · have hcmp : strncmpEq (name.drop (name.length - d.length)) d d.length = false := by
          rw [← Bool.not_eq_true]
          exact fun h => hsuf ((strncmpEq_drop_iff name d hle).1 h)
        simp only [hcmp, Bool.not_false, if_true, hsuf, if_false]
        exact ih'

/-- With a template set and a non-empty domain list without over-long
suffixes, `mvr_get_document_root` returns the first successful candidate; with
an empty list it interpolates the whole name once and records no domain. -/
theorem mvr_get_document_root_eq_firstSuccess (env : Env) (map name : List Char)
    (domains : List (List Char)) (hname : NUL ∉ name) (hnul : ∀ d ∈ domains, NUL ∉ d)
    (hlen : ∀ d ∈ domains, d ≠ ['.'] → d.length ≤ name.length) :
    (domains ≠ [] →
        mvr_get_document_root env { doc_root := some map, domains := domains } name
          = (firstSuccess env map name domains).map (outcomeOf name))
      ∧ mvr_get_document_root env { doc_root := some map, domains := [] } name
        = (virtualroot_interpolate env name map).map
            (fun r => { root := r, note := none, name := name }) := by
  constructor
  · intro hne
    have hpos : domains.length > 0 := List.length_pos.2 hne
    simp only [mvr_get_document_root, hpos, if_true]
    exact domainLoop_eq_firstSuccess env map name hname domains hnul hlen
  · simp only [mvr_get_document_root, List.length_nil, gt_iff_lt, lt_self_iff_false, if_false]
    cases virtualroot_interpolate env name map <;> rfl


/-- The domains `a.example.com`, `.` with the host name `x.a.example.com`: the
suffix entry is tried first and wins when its directory exists; the wildcard is
used when the suffix entry finds no directory; with no directory at all the
result is "no document root".  The host name is unchanged each time. -/
theorem domain_order_example :
    mvr_get_document_root (stdEnv ["/x.".toList, "/x.a.example.com".toList]) confOrder hostXa
        = Except.ok { root := some "/x.".toList, note := some "a.example.com".toList,
                      name := hostXa }
      ∧ mvr_get_document_root (stdEnv ["/x.a.example.com".toList]) confOrder hostXa
        = Except.ok { root := some "/x.a.example.com".toList, note := none, name := hostXa }
      ∧ mvr_get_document_root (stdEnv []) confOrder hostXa
        = Except.ok { root := none, note := none, name := hostXa } := by
  decide

/-- C1 fails on the code when a configured suffix is longer than the host name:
with the template `/%0`, the domains `a.b` and `.` and the host name `b`, of
which `/b` is an existing directory, the wildcard entry alone would succeed
with `/b`, but the suffix comparison for `a.b` starts two bytes in front of the
host name. -/
theorem C1_overlong_suffix_faults :
    mvr_get_document_root (stdEnv ["/b".toList]) confOverlong hostB
        = Except.error Fault.nameUnderrun
      ∧ virtualroot_interpolate (stdEnv ["/b".toList]) hostB "/%0".toList
        = Except.ok (some "/b".toList) := by
  decide

/-! ## Configuration merge -/

/-- C15: the merged domain list is the child's list, unchanged, when the child
has at least one domain (in particular after any `virtualroot_domain_set` on
the child) and the parent's list, unchanged, otherwise; the merged template is
the child's when the child has one and the parent's otherwise.  The merged list
is always one of the two lists, never a combination. -/
theorem C15_merge_child_overrides (parent child : mvr_sconf_t) :
    (mvr_merge_server_config parent child).domains
        = (if child.domains = [] then parent.domains else child.domains)
      ∧ (∀ d, (mvr_merge_server_config parent (virtualroot_domain_set child d)).domains
          = child.domains ++ [d])
      ∧ (mvr_merge_server_config parent child).doc_root
        = (match child.doc_root with
          | some t => some t
          | none => parent.doc_root)
      ∧ ((mvr_merge_server_config parent child).domains = child.domains
        ∨ (mvr_merge_server_config parent child).domains = parent.domains) := by
  refine ⟨?_, ?_, ?_, ?_⟩
  · simp only [mvr_merge_server_config, List.length_eq_zero]
  · intro d
    simp [mvr_merge_server_config, virtualroot_domain_set]
  · cases h : child.doc_root <;> simp [mvr_merge_server_config, h]
  · by_cases h : child.domains = []
    · right; simp [mvr_merge_server_config, h]
    · left; simp [mvr_merge_server_config, h]

/-! ## Counting labels from the right, and the cap -/

/-- The single label `%-k`, right-counted: the range of left label `L - k + 1`. -/
theorem resolveN_right (name : List Char) (k : Nat) (h1 : 1 ≤ k) (hL : k ≤ labelCount name) :
    resolveN (dotsOf name) (ndotsOf name) k true false
      = { lit := false, start := labelStart name (labelCount name - k + 1),
          stop := labelEnd name (labelCount name - k + 1) } := by
  have hnd := ndotsOf_eq_labelCount name
  have hs := dotsAt_eq_labelStart name (labelCount name - k) (by omega)
  have he := dotsAt_eq_labelEnd name (labelCount name - k) (by omega)
  have c1 : (k : Int) ≠ 0 := by omega
  have c2 : ¬ ((k : Int) > (ndotsOf name : Int)) := by omega
  have c3 : (ndotsOf name : Int) - (k : Int) = ((labelCount name - k : Nat) : Int) := by omega
  have c4 : (ndotsOf name : Int) - (k : Int) + 1 = ((labelCount name - k + 1 : Nat) : Int) := by
    omega
  have he2 : dotsAt (dotsOf name) (((labelCount name - k : Nat) : Int) + 1)
      = labelEnd name (labelCount name - k + 1) := by
    rw [← he]; congr 1
  unfold resolveN
  simp only [c1, c2, c3, ne_eq, not_false_eq_true, if_true, if_false, Bool.not_true,
    Bool.not_false, Bool.false_eq_true, hs, he2]

/-- C17 as stated fails at `a.b` (one recorded dot, two labels) with `k = 1`:
`%-1` is `b`, while the label numbered `ndots - k + 1 = 1` is `a`. -/
theorem C17_counterexample :
    (recordedDots hostAB).length = 1
      ∧ rangeBytes hostAB (rangeN hostAB (1 : Nat) true false) = ['b']
      ∧ rangeBytes hostAB (rangeN hostAB ((recordedDots hostAB).length - 1 + 1 : Nat) false false)
        = ['a']
      ∧ rangeN hostAB (1 : Nat) true false
        ≠ rangeN hostAB ((recordedDots hostAB).length - 1 + 1 : Nat) false false := by
  decide

/-- C17, amended: with `r` recorded dots, hence `r + 1` addressable labels, and
`1 <= k <= r + 1`, the field `%-k` selects the label numbered `r - k + 2` from
the left, that is `ndots - k + 1` for the variable `ndots = r + 1` of the
code. -/
theorem C17_right_numbering (name : List Char) (k : Nat) (h1 : 1 ≤ k)
    (hL : k ≤ (recordedDots name).length + 1) :
    ndotsOf name = (recordedDots name).length + 1
      ∧ rangeN name k true false
        = rangeN name ((recordedDots name).length + 2 - k : Nat) false false
      ∧ rangeN name k true false = rangeN name ((ndotsOf name - k + 1 : Nat) : Int) false false := by
  have hnd : ndotsOf name = (recordedDots name).length + 1 := ndotsOf_eq_labelCount name
  have hr := resolveN_right name k h1 hL
  have hl := resolveN_left name (labelCount name - k + 1) (by omega)
    (by unfold labelCount; omega)
  have e : (recordedDots name).length + 2 - k = labelCount name - k + 1 := by
    unfold labelCount; omega
  have e2 : ndotsOf name - k + 1 = labelCount name - k + 1 := by rw [hnd]; rfl
  refine ⟨hnd, ?_, ?_⟩
  · unfold rangeN; rw [e, hr, hl]
  · unfold rangeN; rw [e2, hr, hl]

/-- C17, amended, at `www.a.b.example.com` (four recorded dots) with `k = 2`:
`%-2` is the fourth label, `example`. -/
theorem C17_right_numbering_witness :
    1 ≤ 2 ∧ 2 ≤ (recordedDots hostWww).length + 1
      ∧ rangeN hostWww (2 : Nat) true false = rangeN hostWww (4 : Nat) false false
      ∧ rangeBytes hostWww (rangeN hostWww (2 : Nat) true false) = "example".toList :=
  ⟨by decide, by decide,
    (C17_right_numbering hostWww 2 (by decide) (by decide)).2.1.trans (by decide),
    by decide⟩

/-- C16 as stated fails at a name with 19 dots: the index records 18 of them,
not 19, and has 19 addressable labels, not 20; the last label is `s.t`. -/
theorem C16_counterexample :
    host20.count '.' = 19
      ∧ ndotsOf host20 - 1 = 18
      ∧ ndotsOf host20 - 1 ≠ min (host20.count '.') 19
      ∧ ndotsOf host20 ≠ min (host20.count '.') 19 + 1
      ∧ rangeBytes host20 (rangeN host20 1 true false) = ['s', '.', 't'] := by
  decide

/-- C16, amended: the index records the position of every `.` up to a cap of
18 (`MAXDOTS - 1`, the entry `dots[0]` being the sentinel), so a name with `d`
dots has `min(d, 18)` recorded dots and `min(d, 18) + 1` addressable labels;
the last addressable label runs to the end of the name, so dots beyond the cap
stay in its text, and `%0` is the whole name. -/
theorem C16_dot_cap (name : List Char) :
    dotsOf name = -1 :: ((dotPosFrom name 0).take 18 ++ [(name.length : Int)])
      ∧ (dotPosFrom name 0).length = name.count '.'
      ∧ (recordedDots name).length = min (name.count '.') 18
      ∧ ndotsOf name = min (name.count '.') 18 + 1
      ∧ rangeN name 1 true false
        = { lit := false, start := labelStart name (ndotsOf name), stop := name.length }
      ∧ rangeBytes name (rangeN name 1 true false)
        = name.drop (labelStart name (ndotsOf name)).toNat
      ∧ rangeBytes name (rangeN name 0 false false) = name := by
  have hlen := length_dotPosFrom name 0
  have hrec : (recordedDots name).length = min (name.count '.') 18 := by
    simp [recordedDots, MAXDOTS, hlen, Nat.min_comm]
  have hnd : ndotsOf name = min (name.count '.') 18 + 1 := by
    rw [ndotsOf_eq_labelCount, labelCount, hrec]
  have hlast : rangeN name 1 true false
      = { lit := false, start := labelStart name (ndotsOf name), stop := name.length } := by
    have h := resolveN_right name 1 (le_refl _) (by unfold labelCount; omega)
    have e : labelCount name - 1 + 1 = labelCount name := by unfold labelCount; omega
    have hend : labelEnd name (labelCount name) = name.length := by simp [labelEnd]
    simp only [Nat.cast_one] at h
    rw [e, hend] at h
    have e3 : labelStart name (ndotsOf name) = labelStart name (labelCount name) := by
      rw [ndotsOf_eq_labelCount]
    unfold rangeN
    rw [e3]
    exact h
  have h0 : rangeN name 0 false false = { lit := false, start := 0, stop := name.length } := by
    unfold rangeN resolveN
    simp only [ne_eq, not_true_eq_false, if_false, dotsAt_zero, dotsAt_ndots]
    rfl
  refine ⟨dotsOf_eq name, hlen, hrec, hnd, hlast, ?_, ?_⟩
  · rw [hlast]
    simp only [rangeBytes, slice, Bool.false_eq_true, if_false]
    apply List.take_of_length_le
    rw [List.length_drop]
    omega
  · rw [h0]
    simp [rangeBytes, slice]

/-! ## The stored template -/

theorem virtualroot_set_doc_root (isAbs : List Char → Bool) (conf : mvr_sconf_t)
    (map t : List Char) (h : (virtualroot_set isAbs conf map).2.doc_root = some t) :
    conf.doc_root = some t ∨ (t = map ∧ isAbs map = true ∧ ∃ ps, setLoop map.length map = some ps) := by
  unfold virtualroot_set at h
  by_cases ha : isAbs map = true
  · simp only [ha, Bool.not_true, Bool.false_eq_true, if_false] at h
    cases hs : setLoop map.length map with
    | none => rw [hs] at h; exact Or.inl h
    | some ps =>
      rw [hs] at h
      simp only [Option.some.injEq] at h
      exact Or.inr ⟨h.symm, ha, ps, rfl⟩
  · have ha' : isAbs map = false := by simpa using ha
    simp only [ha', Bool.not_false, if_true] at h
    split at h <;> exact Or.inl h

theorem virtualroot_set_error_unchanged (isAbs : List Char → Bool) (conf : mvr_sconf_t)
    (map : List Char) (h : (virtualroot_set isAbs conf map).1 ≠ none) :
    (virtualroot_set isAbs conf map).2 = conf := by
  unfold virtualroot_set at h ⊢
  by_cases ha : isAbs map = true
  · simp only [ha, Bool.not_true, Bool.false_eq_true, if_false] at h ⊢
    cases hs : setLoop map.length map with
    | none => rfl
    | some ps => rw [hs] at h; exact absurd rfl h
  · have ha' : isAbs map = false := by simpa using ha
    simp only [ha', Bool.not_false, if_true]
    split <;> rfl

theorem reachable_template_ok (isAbs : List Char → Bool) (conf : mvr_sconf_t)
    (h : Reachable isAbs conf) :
    ∀ t, conf.doc_root = some t → isAbs t = true ∧ ∃ ps, setLoop t.length t = some ps := by
  induction h with
  | create => intro t ht; simp [mvr_create_server_config] at ht
  | template conf map _ ih =>
    intro t ht
    rcases virtualroot_set_doc_root isAbs conf map t ht with h1 | ⟨rfl, ha, hs⟩
    · exact ih t h1
    · exact ⟨ha, hs⟩
  | domain conf d _ ih =>
    intro t ht
    exact ih t (by simpa [virtualroot_domain_set] using ht)
  | merge parent child _ _ ihp ihc =>
    intro t ht
    unfold mvr_merge_server_config at ht
    by_cases hc : child.doc_root = none
    · simp only [hc, if_true] at ht
      exact ihp t ht
    · simp only [hc, if_false] at ht
      exact ihc t ht

/-- C18: in every configuration state reachable through the four
configuration functions the stored template is unset or an absolute path that
passes the sanity check of `virtualroot_set`, which therefore never faults in
the scanner of the interpolation; and a call of `virtualroot_set` that returns
an error leaves the whole record, the stored template included, unchanged. -/
theorem C18_stored_template_invariant (isAbs : List Char → Bool) (conf : mvr_sconf_t)
    (h : Reachable isAbs conf) :
    (conf.doc_root = none
        ∨ ∃ t, conf.doc_root = some t ∧ isAbs t = true
            ∧ (∃ ps, setLoop t.length t = some ps)
            ∧ ∀ (env : Env) (name : List Char), ∃ st, interpolateAcc env name t = Except.ok st)
      ∧ ∀ map, (virtualroot_set isAbs conf map).1 ≠ none →
          (virtualroot_set isAbs conf map).2 = conf
            ∧ (virtualroot_set isAbs conf map).2.doc_root = conf.doc_root := by
  constructor
  · cases hd : conf.doc_root with
    | none => exact Or.inl rfl
    | some t =>
      obtain ⟨ha, ps, hps⟩ := reachable_template_ok isAbs conf h t hd
      refine Or.inr ⟨t, rfl, ha, ⟨ps, hps⟩, ?_⟩
      intro env name
      obtain ⟨ts, hts, _⟩ := scanLoop_of_setLoop t.length t ps hps
      unfold interpolateAcc
      rw [hts]
      exact ⟨_, rfl⟩
  · intro map hm
    have e := virtualroot_set_error_unchanged isAbs conf map hm
    exact ⟨e, by rw [e]⟩

/-- C18 at the record built by `VirtualRootDomain .` and
`VirtualRoot /docroots/%-2+.-1+/%3/%p/%%`: its stored template is that path,
and the rejected `VirtualRoot /%1.html` leaves it in place. -/
theorem C18_stored_template_invariant_witness :
    Reachable unixAbs confBuilt
      ∧ confBuilt.doc_root = some tplAll
      ∧ (virtualroot_set unixAbs confBuilt tplDotHtml).1 = some SetError.badFormat
      ∧ (virtualroot_set unixAbs confBuilt tplDotHtml).2 = confBuilt :=
  have hr : Reachable unixAbs confBuilt :=
    Reachable.template _ tplAll (Reachable.domain _ ['.'] Reachable.create)
  ⟨hr, by decide, by decide,
    ((C18_stored_template_invariant unixAbs confBuilt hr).2 tplDotHtml (by decide)).1⟩

/-! ## Over-long suffixes and the disabled marker -/

theorem domainLoop_overlong (env : Env) (map name domain : List Char)
    (rest : List (List Char)) (hw : peek domain ≠ '.' ∨ peek domain.tail ≠ NUL)
    (hlen : name.length < domain.length) :
    domainLoop env map name.length (domain :: rest) name = Except.error Fault.nameUnderrun := by
  simp only [domainLoop, hw, if_true, hlen]

/-- C13 fails on the code.  With the template `/%0`, the domains `example.com`
and `b`, and the host name `a.b`, the suffix `example.com` is longer than the
host name; the next candidate `b` alone would give `/a.`, but the comparison
for `example.com` starts eight bytes in front of the host name.  The same
happens for every suffix longer than the host name, whatever follows it. -/
theorem C13_overlong_suffix_not_skipped :
    mvr_get_document_root (stdEnv ["/a.".toList]) confTwoSuffixes hostAB
        = Except.error Fault.nameUnderrun
      ∧ mvr_get_document_root (stdEnv ["/a.".toList])
          { doc_root := confTwoSuffixes.doc_root, domains := [['b']] } hostAB
        = Except.ok { root := some "/a.".toList, note := some ['b'], name := hostAB }
      ∧ ∀ (env : Env) (map name domain : List Char) (rest : List (List Char)),
          (peek domain ≠ '.' ∨ peek domain.tail ≠ NUL) → name.length < domain.length →
          domainLoop env map name.length (domain :: rest) name
            = Except.error Fault.nameUnderrun :=
  ⟨by decide, by decide, domainLoop_overlong⟩

/-- C14 fails on the code.  The marker is accepted, but `virtualroot_set`
leaves the stored template as it is: after `VirtualRoot /%0` and
`VirtualRoot none` in one scope, and also for a scope with `VirtualRoot NoNe`
merged over a parent with `VirtualRoot /%0`, the template `/%0` is still
stored and the request for the host `b` gets the document root `/b`. -/
theorem C14_disabled_marker_ignored :
    (virtualroot_set unixAbs confSlashHost noneMarker).1 = none
      ∧ confThenNone.doc_root = some "/%0".toList
      ∧ mvr_get_document_root (stdEnv ["/b".toList]) confThenNone hostB
        = Except.ok { root := some "/b".toList, note := none, name := hostB }
      ∧ (virtualroot_set unixAbs mvr_create_server_config "NoNe".toList).1 = none
      ∧ confNoneOverParent.doc_root = some "/%0".toList
      ∧ mvr_get_document_root (stdEnv ["/b".toList]) confNoneOverParent hostB
        = Except.ok { root := some "/b".toList, note := none, name := hostB } := by
  decide

/-- The marker alone, on a record without a stored template, leaves the
template unset, and then no document root is returned for any request. -/
theorem none_on_unset (isAbs : List Char → Bool) (conf : mvr_sconf_t) (marker : List Char)
    (habs : isAbs marker = false) (hm : strcasecmpEq marker noneMarker = true)
    (hd : conf.doc_root = none) (env : Env) (name : List Char) :
    (virtualroot_set isAbs conf marker).1 = none
      ∧ mvr_get_document_root env (virtualroot_set isAbs conf marker).2 name
        = Except.ok { root := none, note := none, name := name } := by
  simp [virtualroot_set, habs, hm, mvr_get_document_root, hd]

/-! ## The server name is restored -/

theorem domainLoop_step (env : Env) (map : List Char) (iName : Nat) (name d : List Char)
    (rest : List (List Char)) (o : Outcome)
    (h : domainLoop env map iName (d :: rest) name = Except.ok o) :
    (∃ path, o.root = some path ∧ o.name = name)
      ∨ domainLoop env map iName rest name = Except.ok o := by
  unfold domainLoop at h
  by_cases hw : peek d ≠ '.' ∨ peek d.tail ≠ NUL
  · simp only [hw, if_true] at h
    by_cases hlen : iName < d.length
    · simp [hlen] at h
    · simp only [hlen, if_false] at h
      by_cases hcmp : strncmpEq (List.drop (iName - d.length) name) d d.length = true
      · simp only [hcmp, Bool.not_true, Bool.false_eq_true, if_false, set_NUL_restore] at h
        cases hi : virtualroot_interpolate env (cstr (name.set (iName - d.length) NUL)) map with
        | error f => rw [hi] at h; simp at h
        | ok r =>
          rw [hi] at h
          cases r with
          | none => exact Or.inr h
          | some path =>
            simp only [Except.ok.injEq] at h
            exact Or.inl ⟨path, by rw [← h], by rw [← h]⟩
      · have hc : strncmpEq (List.drop (iName - d.length) name) d d.length = false := by
          simpa using hcmp
        simp only [hc, Bool.not_false, if_true] at h
        exact Or.inr h
  · simp only [hw, if_false] at h
    cases hi : virtualroot_interpolate env (cstr name) map with
    | error f => rw [hi] at h; simp at h
    | ok r =>
      rw [hi] at h
      cases r with
      | none => exact Or.inr h
      | some path =>
        simp only [Except.ok.injEq] at h
        exact Or.inl ⟨path, by rw [← h], by rw [← h]⟩

theorem domainLoop_name (env : Env) (map : List Char) (iName : Nat) (name : List Char) :
    ∀ (domains : List (List Char)) (o : Outcome),
      domainLoop env map iName domains name = Except.ok o → o.name = name := by
  intro domains
  induction domains with
  | nil =>
    intro o h
    simp only [domainLoop, Except.ok.injEq] at h
    rw [← h]
  | cons d rest ih =>
    intro o h
    rcases domainLoop_step env map iName name d rest o h with ⟨_, _, hn⟩ | h2
    · exact hn
    · exact ih o h2

/-- C19: whenever `mvr_get_document_root` returns, the bytes of the server
name are those before the call.  Writing back the saved byte undoes the
truncation at every position, and a candidate of the domain loop either ends
the loop with the name restored or hands the full name on to the next
candidate, whether or not its interpolation found a directory. -/
theorem C19_hostname_restored (env : Env) (conf : mvr_sconf_t) (name : List Char) (o : Outcome)
    (h : mvr_get_document_root env conf name = Except.ok o) :
    o.name = name
      ∧ (∀ k, (name.set k NUL).set k (name.getD k NUL) = name)
      ∧ ∀ (map d : List Char) (rest : List (List Char)) (o2 : Outcome),
          domainLoop env map name.length (d :: rest) name = Except.ok o2 →
          o2.name = name
            ∧ ((∃ path, o2.root = some path)
              ∨ domainLoop env map name.length rest name = Except.ok o2) := by
  refine ⟨?_, set_NUL_restore name, ?_⟩
  · unfold mvr_get_document_root at h
    cases hd : conf.doc_root with
    | none =>
      simp only [hd, Except.ok.injEq] at h
      rw [← h]
    | some map =>
      simp only [hd] at h
      by_cases hl : conf.domains.length > 0
      · simp only [hl, if_true] at h
        exact domainLoop_name env map name.length name conf.domains o h
      · simp only [hl, if_false] at h
        cases hi : virtualroot_interpolate env name map with
        | error f => rw [hi] at h; simp at h
        | ok r =>
          rw [hi] at h
          simp only [Except.ok.injEq] at h
          rw [← h]
  · intro map d rest o2 h2
    refine ⟨domainLoop_name env map name.length name (d :: rest) o2 h2, ?_⟩
    rcases domainLoop_step env map name.length name d rest o2 h2 with ⟨p, hp, _⟩ | h3
    · exact Or.inl ⟨p, hp⟩
    · exact Or.inr h3

/-- C19 at `x.a.example.com` with the domains `a.example.com` and `.`: the
suffix candidate truncates the name to `x.`, finds no directory `/x.`, and the
wildcard then sees the full name again; the name is unchanged at the end. -/
theorem C19_hostname_restored_witness :
    mvr_get_document_root (stdEnv ["/x.a.example.com".toList]) confOrder hostXa
        = Except.ok { root := some "/x.a.example.com".toList, note := none, name := hostXa }
      ∧ cstr (hostXa.set 2 NUL) = "x.".toList
      ∧ (hostXa.set 2 NUL).set 2 (hostXa.getD 2 NUL) = hostXa
      ∧ ({ root := some "/x.a.example.com".toList, note := none, name := hostXa } : Outcome).name
        = hostXa :=
  ⟨by decide, by decide, by decide,
    (C19_hostname_restored (stdEnv ["/x.a.example.com".toList]) confOrder hostXa
      { root := some "/x.a.example.com".toList, note := none, name := hostXa } (by decide)).1⟩

/-! ## Well-formed ranges -/

theorem lt_of_mem_dotPosFrom (name : List Char) : ∀ (p x : Int),
    x ∈ dotPosFrom name p → x < p + name.length := by
  induction name with
  | nil => intro p x h; simp [dotPosFrom] at h
  | cons c rest ih =>
    intro p x h
    by_cases hc : c = '.'
    · simp only [dotPosFrom, hc, if_true, List.mem_cons] at h
      rcases h with h | h
      · simp only [List.length_cons, Nat.cast_add, Nat.cast_one]; omega
      · have := ih _ _ h
        simp only [List.length_cons, Nat.cast_add, Nat.cast_one]; omega
    · simp only [dotPosFrom, hc, if_false] at h
      have := ih _ _ h
      simp only [List.length_cons, Nat.cast_add, Nat.cast_one]; omega

theorem pairwise_dotPosFrom (name : List Char) : ∀ p : Int,
    (dotPosFrom name p).Pairwise (fun a b => a < b) := by
  induction name with
  | nil => intro p; simp [dotPosFrom]
  | cons c rest ih =>
    intro p
    by_cases hc : c = '.'
    · simp only [dotPosFrom, hc, if_true, List.pairwise_cons]
      refine ⟨?_, ih _⟩
      intro x hx
      have := le_of_mem_dotPosFrom rest _ _ hx
      omega
    · simp only [dotPosFrom, hc, if_false]
      exact ih _

theorem recordedDots_bounds (name : List Char) (i : Nat) (hi : i < (recordedDots name).length) :
    0 ≤ (recordedDots name).getD i 0 ∧ (recordedDots name).getD i 0 < name.length := by
  have hm : (recordedDots name)[i] ∈ dotPosFrom name 0 :=
    List.mem_of_mem_take (List.getElem_mem hi)
  have h1 := le_of_mem_dotPosFrom name 0 _ hm
  have h2 := lt_of_mem_dotPosFrom name 0 _ hm
  rw [List.getD_eq_getElem?_getD, List.getElem?_eq_getElem hi]
  simp only [Option.getD_some]
  omega

theorem recordedDots_lt (name : List Char) (i j : Nat) (hij : i < j)
    (hj : j < (recordedDots name).length) :
    (recordedDots name).getD i 0 < (recordedDots name).getD j 0 := by
  have hp : (recordedDots name).Pairwise (fun a b => a < b) :=
    (pairwise_dotPosFrom name 0).take
  have hi : i < (recordedDots name).length := by omega
  have := (List.pairwise_iff_getElem.1 hp) i j hi hj hij
  rw [List.getD_eq_getElem?_getD, List.getElem?_eq_getElem hi, List.getD_eq_getElem?_getD,
    List.getElem?_eq_getElem hj]
  exact this

theorem label_bounds (name : List Char) (k : Nat) (h1 : 1 ≤ k) (hL : k ≤ labelCount name) :
    0 ≤ labelStart name k ∧ labelStart name k ≤ labelEnd name k
      ∧ labelEnd name k ≤ name.length := by
  have hlc : labelCount name = (recordedDots name).length + 1 := rfl
  unfold labelStart labelEnd
  by_cases hk1 : k ≤ 1
  · by_cases hke : labelCount name ≤ k
    · simp only [hk1, hke, if_true]; omega
    · have hb := recordedDots_bounds name (k - 1) (by omega)
      simp only [hk1, hke, if_true, if_false]; omega
  · have hb := recordedDots_bounds name (k - 2) (by omega)
    by_cases hke : labelCount name ≤ k
    · simp only [hk1, hke, if_true, if_false]; omega
    · have hb2 := recordedDots_bounds name (k - 1) (by omega)
      have hlt := recordedDots_lt name (k - 2) (k - 1) (by omega) (by omega)
      simp only [hk1, hke, if_false]; omega




theorem resolveN_zero (name : List Char) (Nd Np : Bool) :
    resolveN (dotsOf name) (ndotsOf name) 0 Nd Np
      = { lit := false, start := 0, stop := name.length } := by
  unfold resolveN
  simp only [ne_eq, not_true_eq_false, if_false, dotsAt_zero, dotsAt_ndots]
  rfl

theorem resolveN_left_plus (name : List Char) (k : Nat) (h1 : 1 ≤ k) (hL : k ≤ labelCount name) :
    resolveN (dotsOf name) (ndotsOf name) k false true
      = { lit := false, start := labelStart name k, stop := name.length } := by
  obtain ⟨j, rfl⟩ : ∃ j, k = j + 1 := ⟨k - 1, by omega⟩
  have hnd := ndotsOf_eq_labelCount name
  have hs := dotsAt_eq_labelStart name j (by omega)
  have c1 : ((j + 1 : Nat) : Int) ≠ 0 := by omega
  have c2 : ¬ (((j + 1 : Nat) : Int) > (ndotsOf name : Int)) := by omega
  have c3 : ((j + 1 : Nat) : Int) - 1 = (j : Int) := by omega
  unfold resolveN
  simp only [c1, c2, c3, ne_eq, not_false_eq_true, if_true, if_false, Bool.not_false,
    Bool.not_true, hs, dotsAt_ndots, Bool.false_eq_true]

theorem resolveN_right_plus (name : List Char) (k : Nat) (h1 : 1 ≤ k)
    (hL : k ≤ labelCount name) :
    resolveN (dotsOf name) (ndotsOf name) k true true
      = { lit := false, start := 0, stop := labelEnd name (labelCount name - k + 1) } := by
  have hnd := ndotsOf_eq_labelCount name
  have he := dotsAt_eq_labelEnd name (labelCount name - k) (by omega)
  have c1 : (k : Int) ≠ 0 := by omega
  have c2 : ¬ ((k : Int) > (ndotsOf name : Int)) := by omega
  have c4 : (ndotsOf name : Int) - (k : Int) + 1 = ((labelCount name - k + 1 : Nat) : Int) := by
    omega
  unfold resolveN
  simp only [c1, c2, c4, ne_eq, not_false_eq_true, if_true, if_false, Bool.not_true,
    Bool.false_eq_true, he, dotsAt_zero]
  rfl

/-- The range after the N step is the literal "_" or lies inside the name. -/
theorem rangeN_wf (name : List Char) (N : Int) (Nd Np : Bool) (hN : 0 ≤ N) :
    rangeN name N Nd Np = Range.underscore
      ∨ ((rangeN name N Nd Np).lit = false ∧ 0 ≤ (rangeN name N Nd Np).start
        ∧ (rangeN name N Nd Np).start ≤ (rangeN name N Nd Np).stop
        ∧ (rangeN name N Nd Np).stop ≤ name.length) := by
  unfold rangeN
  by_cases h0 : N = 0
  · subst h0
    right
    rw [resolveN_zero]
    exact ⟨rfl, le_refl _, by simp, le_refl _⟩
  · by_cases hgt : N > (ndotsOf name : Int)
    · left
      unfold resolveN
      simp [h0, hgt]
    · right
      have hnd := ndotsOf_eq_labelCount name
      obtain ⟨k, rfl⟩ : ∃ k : Nat, N = (k : Int) := ⟨N.toNat, by omega⟩
      have h1 : 1 ≤ k := by omega
      have hL : k ≤ labelCount name := by omega
      have b1 := label_bounds name k h1 hL
      have b2 := label_bounds name (labelCount name - k + 1) (by omega) (by omega)
      cases Nd <;> cases Np
      · rw [resolveN_left name k h1 hL]
        exact ⟨rfl, b1.1, b1.2.1, b1.2.2⟩
      · rw [resolveN_left_plus name k h1 hL]
        exact ⟨rfl, b1.1, by simp only; omega, le_refl _⟩
      · rw [resolveN_right name k h1 hL]
        exact ⟨rfl, b2.1, b2.2.1, b2.2.2⟩
      · rw [resolveN_right_plus name k h1 hL]
        exact ⟨rfl, le_refl _, by simp only; omega, b2.2.2⟩

/-- The range after the M step is the literal "_" or lies inside the name. -/
theorem fieldRange_wf (name : List Char) (N M : Int) (Nd Np Md Mp : Bool) (hN : 0 ≤ N)
    (hM : 0 ≤ M) :
    ((resolveM (rangeN name N Nd Np) M Md Mp).lit = true →
        (resolveM (rangeN name N Nd Np) M Md Mp).start = 0
          ∧ (resolveM (rangeN name N Nd Np) M Md Mp).stop = 1)
      ∧ ((resolveM (rangeN name N Nd Np) M Md Mp).lit = false →
        0 ≤ (resolveM (rangeN name N Nd Np) M Md Mp).start
          ∧ (resolveM (rangeN name N Nd Np) M Md Mp).stop ≤ name.length)
      ∧ (resolveM (rangeN name N Nd Np) M Md Mp).start
        ≤ (resolveM (rangeN name N Nd Np) M Md Mp).stop := by
  have hwf := rangeN_wf name N Nd Np hN
  generalize rangeN name N Nd Np = r at hwf
  have hbase : (r.lit = true → r.start = 0 ∧ r.stop = 1)
      ∧ (r.lit = false → 0 ≤ r.start ∧ r.stop ≤ name.length) ∧ r.start ≤ r.stop
      ∧ 0 ≤ r.start := by
    rcases hwf with rfl | ⟨hl, h0, hle, hlen⟩
    · exact ⟨fun _ => ⟨rfl, rfl⟩, fun h => absurd h (by decide), by decide, by decide⟩
    · exact ⟨fun h => absurd (hl ▸ h) (by decide), fun _ => ⟨h0, hlen⟩, hle, h0⟩
  by_cases hM0 : M = 0
  · subst hM0
    have e : resolveM r 0 Md Mp = r := by simp [resolveM]
    rw [e]
    exact ⟨hbase.1, hbase.2.1, hbase.2.2.1⟩
  · have hM1 : 1 ≤ M := by omega
    obtain ⟨hfall, hin⟩ := reslice_of_start_nonneg name r hbase.2.2.2 M hM1
    by_cases hlt : r.stop - r.start < M
    · rw [(hfall hlt Md Mp).1]
      exact ⟨fun _ => ⟨rfl, rfl⟩, fun h => absurd h (by decide), by decide⟩
    · obtain ⟨_, _, hsub⟩ := hin (by omega)
      obtain ⟨hl, h1, h2, h3⟩ := hsub Md Mp
      refine ⟨?_, ?_, by omega⟩
      · intro ht
        have := hbase.1 (hl ▸ ht)
        omega
      · intro hf
        have := hbase.2.1 (hl ▸ hf)
        omega

theorem length_slice (s : List Char) (a b : Int) (ha : 0 ≤ a) (hab : a ≤ b)
    (hb : b ≤ s.length) : ((slice s a b).length : Int) = b - a := by
  unfold slice
  rw [List.length_take, List.length_drop]
  omega

/-- The N step reads `dots` at the indices of `dotsReads` only. -/
theorem resolveN_reads (d1 d2 : List Int) (ndots : Nat) (N : Int) (Nd Np : Bool)
    (h : ∀ i ∈ dotsReads ndots N Nd Np, dotsAt d1 i = dotsAt d2 i) :
    resolveN d1 ndots N Nd Np = resolveN d2 ndots N Nd Np := by
  have h0 : dotsAt d1 0 = dotsAt d2 0 := h 0 (by simp [dotsReads])
  have hn : dotsAt d1 ndots = dotsAt d2 ndots := h ndots (by simp [dotsReads])
  unfold resolveN
  by_cases hz : N = 0
  · simp [hz, h0, hn]
  · by_cases hgt : N > (ndots : Int)
    · simp [hz, hgt]
    · cases Nd <;> cases Np
      · have a := h (N - 1) (by simp [dotsReads, hz, hgt])
        have b := h N (by simp [dotsReads, hz, hgt])
        simp [hz, hgt, a, b]
      · have a := h (N - 1) (by simp [dotsReads, hz, hgt])
        simp [hz, hgt, a, hn]
      · have a := h ((ndots : Int) - N) (by simp [dotsReads, hz, hgt])
        have b := h ((ndots : Int) - N + 1) (by simp [dotsReads, hz, hgt])
        simp [hz, hgt, a, b]
      · have b := h ((ndots : Int) - N + 1) (by simp [dotsReads, hz, hgt])
        simp [hz, hgt, b, h0]

/-- C20: for every name and every field with `N`, `M` in 0..9 and any flags,
the index holds `ndots <= MAXDOTS` with `dots[0 .. ndots]` stored, every read
of `dots` in the N step is at an index in `0 .. ndots` (the N step depends on
`dots` at those indices only), and the final pair
`(start, end)` has `start <= end` and is either the literal "_" (`0, 1`) or
lies inside the bytes of the name; so the size handed to
`virtualroot_checkspace` is not negative and the copy loop reads exactly
`end - start` bytes, none outside. -/
theorem C20_range_well_formed (name : List Char) (N M : Int) (Nd Np Md Mp : Bool)
    (hN0 : 0 ≤ N) (_hN9 : N ≤ 9) (hM0 : 0 ≤ M) (_hM9 : M ≤ 9) :
    ndotsOf name ≤ MAXDOTS
      ∧ (dotsOf name).length = ndotsOf name + 1
      ∧ (∀ i ∈ dotsReads (ndotsOf name) N Nd Np, 0 ≤ i ∧ i ≤ ndotsOf name)
      ∧ (∀ d2 : List Int,
          (∀ i ∈ dotsReads (ndotsOf name) N Nd Np, dotsAt (dotsOf name) i = dotsAt d2 i) →
          resolveN d2 (ndotsOf name) N Nd Np = rangeN name N Nd Np)
      ∧ ((resolveM (rangeN name N Nd Np) M Md Mp).lit = true →
          (resolveM (rangeN name N Nd Np) M Md Mp).start = 0
            ∧ (resolveM (rangeN name N Nd Np) M Md Mp).stop = 1)
      ∧ ((resolveM (rangeN name N Nd Np) M Md Mp).lit = false →
          0 ≤ (resolveM (rangeN name N Nd Np) M Md Mp).start
            ∧ (resolveM (rangeN name N Nd Np) M Md Mp).stop ≤ name.length)
      ∧ (resolveM (rangeN name N Nd Np) M Md Mp).start
          ≤ (resolveM (rangeN name N Nd Np) M Md Mp).stop
      ∧ 0 ≤ (resolveM (rangeN name N Nd Np) M Md Mp).stop
          - (resolveM (rangeN name N Nd Np) M Md Mp).start
      ∧ ((rangeBytes name (resolveM (rangeN name N Nd Np) M Md Mp)).length : Int)
          = (resolveM (rangeN name N Nd Np) M Md Mp).stop
            - (resolveM (rangeN name N Nd Np) M Md Mp).start := by
  have hnd := ndotsOf_eq name
  have hlen : (dotsOf name).length = ndotsOf name + 1 := by
    rw [ndotsOf_eq, dotsOf_eq]
    simp [Nat.min_comm]
  obtain ⟨w1, w2, w3⟩ := fieldRange_wf name N M Nd Np Md Mp hN0 hM0
  refine ⟨by rw [hnd]; simp only [MAXDOTS]; omega, hlen, ?_,
    fun d2 h => (resolveN_reads (dotsOf name) d2 (ndotsOf name) N Nd Np h).symm,
    w1, w2, w3, by omega, ?_⟩
  · intro i hi
    unfold dotsReads at hi
    have hpos : 1 ≤ ndotsOf name := by rw [hnd]; omega
    by_cases h0 : N = 0
    · simp only [h0, ne_eq, not_true_eq_false, if_false, List.append_nil, List.mem_cons,
        List.mem_singleton, List.not_mem_nil, or_false] at hi
      omega
    · by_cases hgt : N > (ndotsOf name : Int)
      · simp only [h0, hgt, ne_eq, not_false_eq_true, if_true, List.append_nil, List.mem_cons,
          List.mem_singleton, List.not_mem_nil, or_false] at hi
        omega
      · cases Nd <;> cases Np <;>
          simp [h0, hgt] at hi <;> omega
  · unfold rangeBytes
    cases hl : (resolveM (rangeN name N Nd Np) M Md Mp).lit
    · have := w2 hl
      simp only [Bool.false_eq_true, if_false]
      exact length_slice name _ _ this.1 w3 this.2
    · have := w1 hl
      simp only [if_true]
      rw [this.1, this.2]
      rfl

/-- C20 at the empty name with `%1`, at `a.b` with `%-2+.-1` and at the name
with 19 dots with `%9+.9+`. -/
theorem C20_range_well_formed_witness :
    (0 : Int) ≤ 2 ∧ (2 : Int) ≤ 9 ∧ (0 : Int) ≤ 1 ∧ (1 : Int) ≤ 9
      ∧ (∀ i ∈ dotsReads (ndotsOf hostAB) 2 true true, 0 ≤ i ∧ i ≤ ndotsOf hostAB)
      ∧ (resolveM (rangeN hostAB 2 true true) 1 true false).start
        ≤ (resolveM (rangeN hostAB 2 true true) 1 true false).stop
      ∧ resolveM (rangeN [] 1 false false) 0 false false = { lit := false, start := 0, stop := 0 }
      ∧ resolveM (rangeN host20 9 false true) 9 false true
        = { lit := false, start := 24, stop := 39 } :=
  ⟨by decide, by decide, by decide, by decide,
    (C20_range_well_formed hostAB 2 1 true true true false (by decide) (by decide) (by decide)
      (by decide)).2.2.1,
    (C20_range_well_formed hostAB 2 1 true true true false (by decide) (by decide) (by decide)
      (by decide)).2.2.2.2.2.2.1,
    by decide, by decide⟩

/-! ## Flushes -/

theorem buf_pushAll (cs : List Char) : ∀ st : Acc, (st.pushAll cs).buf = st.buf ++ cs := by
  induction cs with
  | nil => intro st; simp [Acc.pushAll]
  | cons c cs ih =>
    intro st
    have : st.pushAll (c :: cs) = (st.push c).pushAll cs := rfl
    rw [this, ih]
    simp [Acc.push]

theorem docroot_pushAll (cs : List Char) : ∀ st : Acc, (st.pushAll cs).docroot = st.docroot := by
  induction cs with
  | nil => intro st; rfl
  | cons c cs ih =>
    intro st
    have : st.pushAll (c :: cs) = (st.push c).pushAll cs := rfl
    rw [this, ih]
    rfl

/-- A field `%0` that fits: the lower-cased name is appended, nothing is flushed. -/
theorem emit_whole_fits (env : Env) (name : List Char) (st : Acc)
    (h : st.buf.length + name.length ≤ env.hugeLen) :
    (emit env name st tokWhole).buf = st.buf ++ name.map apr_tolower
      ∧ (emit env name st tokWhole).docroot = st.docroot := by
  have hno : ¬ ((st.buf.length : Int) + (name.length : Int) > (env.hugeLen : Int)) := by omega
  unfold tokWhole
  rw [emit_pct0]
  simp only [virtualroot_checkspace, hno, if_false, buf_pushAll, docroot_pushAll, and_self]

/-- A field `%0` that does not fit, `r->filename` being NULL: the scratch
contents become the flushed string, whatever was flushed before, and the
scratch buffer restarts with the lower-cased name. -/
theorem emit_whole_flushes (env : Env) (name : List Char) (st : Acc)
    (hf : env.filename = none) (h : env.hugeLen < st.buf.length + name.length) :
    (emit env name st tokWhole).buf = name.map apr_tolower
      ∧ (emit env name st tokWhole).docroot = some st.buf := by
  have hyes : (st.buf.length : Int) + (name.length : Int) > (env.hugeLen : Int) := by omega
  unfold tokWhole
  rw [emit_pct0]
  simp only [virtualroot_checkspace, hyes, if_true, buf_pushAll, docroot_pushAll, hf,
    List.nil_append, and_self]

/-- A run of `k` fields `%0` that fit. -/
theorem run_whole_fits (env : Env) (name : List Char) : ∀ (k : Nat) (st : Acc),
    st.buf.length + k * name.length ≤ env.hugeLen →
    ((List.replicate k tokWhole).foldl (emit env name) st).buf
        = st.buf ++ (List.replicate k (name.map apr_tolower)).flatten
      ∧ ((List.replicate k tokWhole).foldl (emit env name) st).docroot = st.docroot := by
  intro k
  induction k with
  | zero => intro st _; simp
  | succ k ih =>
    intro st h
    have hmul : (k + 1) * name.length = k * name.length + name.length := by ring
    rw [hmul] at h
    obtain ⟨hb, hd⟩ := emit_whole_fits env name st (by omega)
    have hlen : (emit env name st tokWhole).buf.length = st.buf.length + name.length := by
      rw [hb]; simp
    obtain ⟨ib, id⟩ := ih (emit env name st tokWhole) (by rw [hlen]; omega)
    rw [List.replicate_succ, List.foldl_cons, ib, id, hb, hd]
    simp [List.replicate_succ]

theorem length_flatten_replicate (k : Nat) (x : List Char) :
    (List.replicate k x).flatten.length = k * x.length := by
  induction k with
  | zero => simp
  | succ k ih => simp [List.replicate_succ, ih]; ring

/-- The run of `virtualroot_interpolate` on the template `/%0...%0`. -/
theorem interpolateAcc_tplRepeat (env : Env) (name : List Char) (k : Nat) :
    interpolateAcc env name (tplRepeat k)
      = Except.ok (((List.replicate k tokWhole).foldl (emit env name)
          (emit env name Acc.init (Tok.lit '/'))).terminate)
      ∧ ∃ ts, scanLoop (tplRepeat k).length (tplRepeat k) = some ts
          ∧ ts.map Prod.fst = Tok.lit '/' :: List.replicate k tokWhole := by
  obtain ⟨ts, hts, hmap⟩ := scanLoop_pct0 k (2 * k) (le_refl _)
  have hl : (tplRepeat k).length = 2 * k + 1 := by
    simp [tplRepeat, length_flatten_replicate]; ring
  have r1 : readTok ('/' :: (List.replicate k ['%', '0']).flatten)
      = some (Tok.lit '/', (List.replicate k ['%', '0']).flatten) := by
    simp [readTok]
  have hscan : scanLoop (tplRepeat k).length (tplRepeat k)
      = some ((Tok.lit '/', tplRepeat k) :: ts) := by
    rw [hl]
    unfold tplRepeat
    rw [scanLoop_step _ _ _ _ _ r1, hts]
    rfl
  constructor
  · unfold interpolateAcc
    rw [hscan]
    simp only [List.foldl_cons]
    have hfold : ∀ st, ts.foldl (fun st t => emit env name st t.1) st
        = (ts.map Prod.fst).foldl (emit env name) st := by
      intro st; rw [List.foldl_map]
    rw [hfold, hmap]
    rfl
  · exact ⟨_, hscan, by rw [List.map_cons, hmap]; rfl⟩

theorem length_hostA100 : hostA100.length = 100 := by simp [hostA100]

theorem tolower_hostA100 : hostA100.map apr_tolower = hostA100 := by
  have : apr_tolower 'a' = 'a' := by decide
  simp [hostA100, this]

theorem expansion_tokWhole (env : Env) (name : List Char) :
    expansion env name tokWhole = name.map apr_tolower := by
  have hr : resolveM (rangeN name 0 false false) 0 false false
      = { lit := false, start := 0, stop := name.length } := by
    unfold rangeN
    rw [resolveN_zero]
    simp [resolveM]
  simp only [tokWhole, expansion, hr]
  simp [rangeBytes, slice]

theorem fullText_tplRepeat (env : Env) (name : List Char) (k : Nat) :
    fullText env name (Tok.lit '/' :: List.replicate k tokWhole)
      = '/' :: (List.replicate k (name.map apr_tolower)).flatten := by
  unfold fullText
  rw [List.map_cons, List.map_replicate, expansion_tokWhole]
  rfl

theorem accepts_tplRepeat (k : Nat) :
    (virtualroot_set unixAbs mvr_create_server_config (tplRepeat k)).1 = none := by
  have hg : GreedyTemplate (tplRepeat k) := GreedyTemplate.lit '/' _ (by decide) (greedy_pct0 k)
  obtain ⟨ps, hps⟩ := setLoop_of_greedy _ hg (tplRepeat k).length (le_refl _)
  have habs : unixAbs (tplRepeat k) = true := rfl
  unfold virtualroot_set
  simp only [habs, Bool.not_true, Bool.false_eq_true, if_false, hps]

/-- The state after the leading `/` and 81 fields `%0` for the 100-byte name:
8101 bytes in the scratch buffer, nothing flushed. -/
theorem state_after_81 (dirs : List (List Char)) :
    ((List.replicate 81 tokWhole).foldl (emit (stdEnv dirs) hostA100)
        (emit (stdEnv dirs) hostA100 Acc.init (Tok.lit '/'))).buf
        = '/' :: (List.replicate 81 hostA100).flatten
      ∧ ((List.replicate 81 tokWhole).foldl (emit (stdEnv dirs) hostA100)
        (emit (stdEnv dirs) hostA100 Acc.init (Tok.lit '/'))).docroot = none := by
  have h0 : (emit (stdEnv dirs) hostA100 Acc.init (Tok.lit '/')).buf = ['/']
      ∧ (emit (stdEnv dirs) hostA100 Acc.init (Tok.lit '/')).docroot = none := by
    simp [emit, virtualroot_checkspace, Acc.push, Acc.init, stdEnv]
  obtain ⟨hb, hd⟩ := run_whole_fits (stdEnv dirs) hostA100 81
    (emit (stdEnv dirs) hostA100 Acc.init (Tok.lit '/'))
    (by rw [h0.1, length_hostA100]; simp [stdEnv])
  rw [hb, hd, h0.1, h0.2, tolower_hostA100]
  exact ⟨rfl, rfl⟩

/-- The state after one more field: the first flush. -/
theorem state_after_82 (dirs : List (List Char)) :
    ((List.replicate 82 tokWhole).foldl (emit (stdEnv dirs) hostA100)
        (emit (stdEnv dirs) hostA100 Acc.init (Tok.lit '/'))).buf = hostA100
      ∧ ((List.replicate 82 tokWhole).foldl (emit (stdEnv dirs) hostA100)
        (emit (stdEnv dirs) hostA100 Acc.init (Tok.lit '/'))).docroot
        = some ('/' :: (List.replicate 81 hostA100).flatten) := by
  obtain ⟨hb, _⟩ := state_after_81 dirs
  have hsplit : List.replicate 82 tokWhole = List.replicate 81 tokWhole ++ [tokWhole] :=
    List.replicate_succ' 81 tokWhole
  rw [hsplit, List.foldl_append, List.foldl_cons, List.foldl_nil]
  obtain ⟨fb, fd⟩ := emit_whole_flushes (stdEnv dirs) hostA100
    ((List.replicate 81 tokWhole).foldl (emit (stdEnv dirs) hostA100)
      (emit (stdEnv dirs) hostA100 Acc.init (Tok.lit '/'))) rfl
    (by rw [hb]; simp [length_flatten_replicate, length_hostA100, stdEnv])
  rw [fb, fd, hb, tolower_hostA100]
  exact ⟨rfl, rfl⟩

theorem buf_terminate (st : Acc) : st.terminate.buf = st.buf := rfl

theorem docroot_terminate (st : Acc) : st.terminate.docroot = st.docroot := rfl

theorem interpolate_of_acc (env : Env) (name map : List Char) (st : Acc)
    (h : interpolateAcc env name map = Except.ok st) :
    virtualroot_interpolate env name map = Except.ok (finish env st) := by
  unfold virtualroot_interpolate
  rw [h]
  rfl

theorem finish_flushed (env : Env) (st : Acc) (b d : List Char) (hb : st.buf = b)
    (hd : st.docroot = some d) :
    finish env st = if !env.isDir b then none else some (d ++ b) := by
  unfold finish
  rw [hb, hd]

/-- Without a flush the probe sees the whole text, and the text is returned
exactly when it names a directory. -/
theorem finish_unflushed (env : Env) (st : Acc) (h : st.docroot = none) :
    st.assembled = st.buf
      ∧ finish env st = if env.isDir st.assembled then some st.assembled else none := by
  have ha : st.assembled = st.buf := by simp [Acc.assembled, h]
  refine ⟨ha, ?_⟩
  unfold finish
  rw [ha, h]
  cases env.isDir st.buf <;> rfl

theorem isDir_single (d p : List Char) : (stdEnv [d]).isDir p = decide (p = d) := by
  simp [stdEnv]

/-- C12 fails on the code once a flush has happened.  With
`HUGE_STRING_LEN = 8192`, the 100-byte host name `aaa...a` and the accepted
template `/%0...%0` (82 fields), the text is 8201 bytes; the probe of line 321
looks at the scratch buffer only, which holds the last 100 bytes.  When the
relative path `aaa...a` is the one existing directory, the 8201-byte path is
returned although it is no directory; and when the 8201-byte path is the one
existing directory, "no match" is returned. -/
theorem C12_probe_sees_last_buffer :
    (virtualroot_set unixAbs mvr_create_server_config (tplRepeat 82)).1 = none
      ∧ virtualroot_interpolate (stdEnv [hostA100]) hostA100 (tplRepeat 82)
        = Except.ok (some ('/' :: (List.replicate 81 hostA100).flatten ++ hostA100))
      ∧ ('/' :: (List.replicate 81 hostA100).flatten ++ hostA100).length = 8201
      ∧ (stdEnv [hostA100]).isDir ('/' :: (List.replicate 81 hostA100).flatten ++ hostA100)
        = false
      ∧ virtualroot_interpolate
          (stdEnv ['/' :: (List.replicate 81 hostA100).flatten ++ hostA100]) hostA100
          (tplRepeat 82) = Except.ok none := by
  have hlen : ('/' :: (List.replicate 81 hostA100).flatten ++ hostA100).length = 8201 := by
    rw [List.length_append, List.length_cons, length_flatten_replicate, length_hostA100]
  have hne : ('/' :: (List.replicate 81 hostA100).flatten ++ hostA100) ≠ hostA100 := by
    intro e
    have := congrArg List.length e
    rw [hlen, length_hostA100] at this
    omega
  have hrun : ∀ dirs, virtualroot_interpolate (stdEnv dirs) hostA100 (tplRepeat 82)
      = Except.ok (if !(stdEnv dirs).isDir hostA100 then none
          else some ('/' :: (List.replicate 81 hostA100).flatten ++ hostA100)) := by
    intro dirs
    obtain ⟨hb, hd⟩ := state_after_82 dirs
    rw [interpolate_of_acc _ _ _ _ (interpolateAcc_tplRepeat (stdEnv dirs) hostA100 82).1,
      finish_flushed _ _ _ _ ((buf_terminate _).trans hb) ((docroot_terminate _).trans hd)]
  refine ⟨accepts_tplRepeat 82, ?_, hlen, ?_, ?_⟩
  · rw [hrun, isDir_single, decide_eq_true rfl]
    rfl
  · rw [isDir_single, decide_eq_false hne]
  · rw [hrun, isDir_single, decide_eq_false hne.symm]
    rfl




/-- The state after 80 more fields and then one more: the second flush keeps
only the scratch contents since the first flush. -/
theorem state_after_163 (dirs : List (List Char)) :
    ((List.replicate 163 tokWhole).foldl (emit (stdEnv dirs) hostA100)
        (emit (stdEnv dirs) hostA100 Acc.init (Tok.lit '/'))).buf = hostA100
      ∧ ((List.replicate 163 tokWhole).foldl (emit (stdEnv dirs) hostA100)
        (emit (stdEnv dirs) hostA100 Acc.init (Tok.lit '/'))).docroot
        = some (hostA100 ++ (List.replicate 80 hostA100).flatten) := by
  obtain ⟨hb, hd⟩ := state_after_82 dirs
  have hsplit : List.replicate 163 tokWhole
      = List.replicate 82 tokWhole ++ (List.replicate 80 tokWhole ++ [tokWhole]) := by
    rw [← List.replicate_succ' 80 tokWhole, ← List.replicate_add]
  rw [hsplit, List.foldl_append, List.foldl_append, List.foldl_cons, List.foldl_nil]
  generalize (List.replicate 82 tokWhole).foldl (emit (stdEnv dirs) hostA100)
    (emit (stdEnv dirs) hostA100 Acc.init (Tok.lit '/')) = s82 at hb hd
  obtain ⟨rb, rd⟩ := run_whole_fits (stdEnv dirs) hostA100 80 s82
    (by rw [hb, length_hostA100]; simp [stdEnv])
  generalize (List.replicate 80 tokWhole).foldl (emit (stdEnv dirs) hostA100) s82 = s162
    at rb rd
  obtain ⟨fb, fd⟩ := emit_whole_flushes (stdEnv dirs) hostA100 s162 rfl
    (by rw [rb, hb, tolower_hostA100, List.length_append, length_flatten_replicate,
          length_hostA100]; simp [stdEnv])
  rw [fb, fd, rb, hb, tolower_hostA100]
  exact ⟨rfl, rfl⟩

/-- C11 fails on the code at the second flush.  With `HUGE_STRING_LEN = 8192`,
the 100-byte host name `aaa...a` and the accepted template `/%0...%0` (163
fields), everything appended is 16301 bytes, but the text assembled at the end
is 8200 bytes: the second flush of `virtualroot_checkspace` replaces the
string flushed first (8101 bytes) instead of appending to it.  After a single
flush (82 fields) the assembled text is still complete. -/
theorem C11_second_flush_drops_text :
    (virtualroot_set unixAbs mvr_create_server_config (tplRepeat 163)).1 = none
      ∧ (∃ st ts, interpolateAcc (stdEnv []) hostA100 (tplRepeat 163) = Except.ok st
          ∧ scanLoop (tplRepeat 163).length (tplRepeat 163) = some ts
          ∧ fullText (stdEnv []) hostA100 (ts.map Prod.fst)
            = '/' :: (List.replicate 163 hostA100).flatten
          ∧ (fullText (stdEnv []) hostA100 (ts.map Prod.fst)).length = 16301
          ∧ st.assembled = hostA100 ++ (List.replicate 80 hostA100).flatten ++ hostA100
          ∧ st.assembled.length = 8200
          ∧ st.assembled ≠ fullText (stdEnv []) hostA100 (ts.map Prod.fst))
      ∧ ∃ st ts, interpolateAcc (stdEnv []) hostA100 (tplRepeat 82) = Except.ok st
          ∧ scanLoop (tplRepeat 82).length (tplRepeat 82) = some ts
          ∧ st.assembled = fullText (stdEnv []) hostA100 (ts.map Prod.fst) := by
  refine ⟨accepts_tplRepeat 163, ?_, ?_⟩
  · obtain ⟨hrun, ts, hts, hmap⟩ := interpolateAcc_tplRepeat (stdEnv []) hostA100 163
    obtain ⟨hb, hd⟩ := state_after_163 []
    have hfull : fullText (stdEnv []) hostA100 (ts.map Prod.fst)
        = '/' :: (List.replicate 163 hostA100).flatten := by
      rw [hmap, fullText_tplRepeat, tolower_hostA100]
    have hfl : (fullText (stdEnv []) hostA100 (ts.map Prod.fst)).length = 16301 := by
      rw [hfull, List.length_cons, length_flatten_replicate, length_hostA100]
    have hasm : (((List.replicate 163 tokWhole).foldl (emit (stdEnv []) hostA100)
        (emit (stdEnv []) hostA100 Acc.init (Tok.lit '/'))).terminate).assembled
        = hostA100 ++ (List.replicate 80 hostA100).flatten ++ hostA100 := by
      unfold Acc.assembled
      rw [buf_terminate, docroot_terminate, hb, hd]
      rfl
    have hal : (hostA100 ++ (List.replicate 80 hostA100).flatten ++ hostA100).length = 8200 := by
      rw [List.length_append, List.length_append, length_flatten_replicate, length_hostA100]
    refine ⟨_, ts, hrun, hts, hfull, hfl, hasm, by rw [hasm, hal], ?_⟩
    intro e
    have := congrArg List.length e
    rw [hasm, hal, hfl] at this
    omega
  · obtain ⟨hrun, ts, hts, hmap⟩ := interpolateAcc_tplRepeat (stdEnv []) hostA100 82
    obtain ⟨hb, hd⟩ := state_after_82 []
    refine ⟨_, ts, hrun, hts, ?_⟩
    unfold Acc.assembled
    rw [buf_terminate, docroot_terminate, hb, hd, hmap, fullText_tplRepeat, tolower_hostA100,
      List.replicate_succ' 81 hostA100, List.flatten_append]
    simp

end VirtualRoot
